import Mathlib

/-!
Shallow embedding of `src/octree.py` (pyoctree): the `OctNode` / `Octree`
data model, insertion (`insertNode` / `__insertNode`), point lookup
(`findPosition` / `__findPosition`), branch selection (`__findBranch`) and
depth-first traversal (`iterateDepthFirst`).

Positions are rational triples: the source only ever halves the world size,
so ℚ models the float arithmetic exactly on all inputs considered here.

The recursion in `__insertNode` is not structurally terminating (subdivision
re-inserts the whole payload list, which can re-trigger subdivision at the
next depth forever when positions coincide), so the embedding carries an
explicit fuel argument; a `none` result means the recursion did not complete
within the given fuel, i.e. the source would still be recursing.
-/

unseal Rat.mul Rat.inv Rat.add Rat.sub

set_option maxRecDepth 100000
set_option maxHeartbeats 2000000

/-- A coordinate triple, used both for positions and node centers. -/
structure Pt3 where
  x : ℚ
  y : ℚ
  z : ℚ
deriving DecidableEq

/-- Python tuple comparison `a < b`, which is lexicographic: this is the
comparison `insertNode` and `findPosition` apply to `position` against
`self.root.lower` / `self.root.upper`. -/
def tupLt (a b : Pt3) : Bool :=
  decide (a.x < b.x) ||
    (decide (a.x = b.x) && (decide (a.y < b.y) ||
      (decide (a.y = b.y) && decide (a.z < b.z))))

/-- Componentwise membership of `p` in the closed box `[lo, hi]` (the
spec's reading of "within world bounds"; not what the source computes). -/
def inBox (p lo hi : Pt3) : Bool :=
  decide (lo.x ≤ p.x) && decide (p.x ≤ hi.x) &&
    decide (lo.y ≤ p.y) && decide (p.y ≤ hi.y) &&
    decide (lo.z ≤ p.z) && decide (p.z ≤ hi.z)

/-- A stored object: either a payload carrying its own `position` attribute
(`hasattr(ob, "position")` is true in the source; `id` stands for the
payload's identity, as with the demo's named `TestObject`s), or a bare
position tuple, which is what `insertNode` stores when `objData is None`
and which the source treats as being the position itself. -/
inductive ObjData where
  | positioned (id : ℕ) (position : Pt3)
  | raw (position : Pt3)
deriving DecidableEq

/-- The position the source uses for an object during subdivision:
`ob.position` if the object has that attribute, otherwise the object
itself (`__insertNode`, lines 204-209). -/
def obPos : ObjData → Pt3
  | .positioned _ p => p
  | .raw p => p

/-- `OctNode`: center `position`, full edge length `size`, `depth`, leaf
flag, payload list `data` and eight child slots (`self.branches`, a list of
eight optional nodes in the source, here eight fields).  A subdividing
node's `data` is set to `None` in the source and never read again (every
read of `data` is guarded by `isLeafNode`); it is modelled as `[]`. -/
inductive OctNode where
  | mk (position : Pt3) (size : ℚ) (depth : ℕ) (isLeafNode : Bool)
      (data : List ObjData)
      (b0 b1 b2 b3 b4 b5 b6 b7 : Option OctNode)

def OctNode.position : OctNode → Pt3
  | .mk p _ _ _ _ _ _ _ _ _ _ _ _ => p

def OctNode.size : OctNode → ℚ
  | .mk _ s _ _ _ _ _ _ _ _ _ _ _ => s

def OctNode.depth : OctNode → ℕ
  | .mk _ _ d _ _ _ _ _ _ _ _ _ _ => d

def OctNode.isLeafNode : OctNode → Bool
  | .mk _ _ _ l _ _ _ _ _ _ _ _ _ => l

def OctNode.data : OctNode → List ObjData
  | .mk _ _ _ _ dat _ _ _ _ _ _ _ _ => dat

def OctNode.b0 : OctNode → Option OctNode
  | .mk _ _ _ _ _ c _ _ _ _ _ _ _ => c

def OctNode.b1 : OctNode → Option OctNode
  | .mk _ _ _ _ _ _ c _ _ _ _ _ _ => c

def OctNode.b2 : OctNode → Option OctNode
  | .mk _ _ _ _ _ _ _ c _ _ _ _ _ => c

def OctNode.b3 : OctNode → Option OctNode
  | .mk _ _ _ _ _ _ _ _ c _ _ _ _ => c

def OctNode.b4 : OctNode → Option OctNode
  | .mk _ _ _ _ _ _ _ _ _ c _ _ _ => c

def OctNode.b5 : OctNode → Option OctNode
  | .mk _ _ _ _ _ _ _ _ _ _ c _ _ => c

def OctNode.b6 : OctNode → Option OctNode
  | .mk _ _ _ _ _ _ _ _ _ _ _ c _ => c

def OctNode.b7 : OctNode → Option OctNode
  | .mk _ _ _ _ _ _ _ _ _ _ _ _ c => c

mutual

/-- Boolean structural equality on nodes (decidable equality is not derived
automatically for this nested inductive type). -/
def OctNode.beq : OctNode → OctNode → Bool
  | .mk p s d l dat c0 c1 c2 c3 c4 c5 c6 c7, .mk p2 s2 d2 l2 dat2 e0 e1 e2 e3 e4 e5 e6 e7 =>
      decide (p = p2) && decide (s = s2) && decide (d = d2) && decide (l = l2) &&
        decide (dat = dat2) && beqOB c0 e0 && beqOB c1 e1 && beqOB c2 e2 && beqOB c3 e3 &&
        beqOB c4 e4 && beqOB c5 e5 && beqOB c6 e6 && beqOB c7 e7

/-- Boolean equality on optional nodes. -/
def beqOB : Option OctNode → Option OctNode → Bool
  | none, none => true
  | some x, some y => OctNode.beq x y
  | _, _ => false

end

/-- Soundness and completeness of `OctNode.beq`, packaged as a `def` because
the decidability instance below depends on it. -/
def octNodeBeqIff : ∀ a b : OctNode, OctNode.beq a b = true ↔ a = b := by
  have key : ∀ k (a b : OctNode), sizeOf a ≤ k → (OctNode.beq a b = true ↔ a = b) := by
    intro k
    induction k with
    | zero =>
      intro a b ha
      exact absurd ha (by cases a; simp_arith)
    | succ k ih =>
      rintro ⟨p, s, d, l, dat, c0, c1, c2, c3, c4, c5, c6, c7⟩
        ⟨p2, s2, d2, l2, dat2, e0, e1, e2, e3, e4, e5, e6, e7⟩ ha
      have hOB : ∀ x y : Option OctNode, sizeOf x ≤ k → (beqOB x y = true ↔ x = y) := by
        rintro (_ | x) (_ | y) hx <;> simp [beqOB]
        exact ih x y (by simp_arith at hx; omega)
      simp only [OctNode.mk.sizeOf_spec] at ha
      simp [OctNode.beq, OctNode.mk.injEq,
        hOB c0 e0 (by omega), hOB c1 e1 (by omega), hOB c2 e2 (by omega),
        hOB c3 e3 (by omega), hOB c4 e4 (by omega), hOB c5 e5 (by omega),
        hOB c6 e6 (by omega), hOB c7 e7 (by omega)]
      tauto
  intro a b
  exact key (sizeOf a) a b (le_refl _)

instance : DecidableEq OctNode := fun a b =>
  decidable_of_iff (OctNode.beq a b = true) (octNodeBeqIff a b)

/-- Branch slot read, `root.branches[branch]`; the source only ever indexes
with `__findBranch`'s result, which lies in 0..7. -/
def OctNode.getBranch (n : OctNode) : ℕ → Option OctNode
  | 0 => n.b0
  | 1 => n.b1
  | 2 => n.b2
  | 3 => n.b3
  | 4 => n.b4
  | 5 => n.b5
  | 6 => n.b6
  | 7 => n.b7
  | _ => none

/-- Branch slot write, `root.branches[branch] = v`. -/
def OctNode.setBranch (n : OctNode) (b : ℕ) (v : Option OctNode) : OctNode :=
  match n, b with
  | .mk p s d l dat _ c1 c2 c3 c4 c5 c6 c7, 0 => .mk p s d l dat v c1 c2 c3 c4 c5 c6 c7
  | .mk p s d l dat c0 _ c2 c3 c4 c5 c6 c7, 1 => .mk p s d l dat c0 v c2 c3 c4 c5 c6 c7
  | .mk p s d l dat c0 c1 _ c3 c4 c5 c6 c7, 2 => .mk p s d l dat c0 c1 v c3 c4 c5 c6 c7
  | .mk p s d l dat c0 c1 c2 _ c4 c5 c6 c7, 3 => .mk p s d l dat c0 c1 c2 v c4 c5 c6 c7
  | .mk p s d l dat c0 c1 c2 c3 _ c5 c6 c7, 4 => .mk p s d l dat c0 c1 c2 c3 v c5 c6 c7
  | .mk p s d l dat c0 c1 c2 c3 c4 _ c6 c7, 5 => .mk p s d l dat c0 c1 c2 c3 c4 v c6 c7
  | .mk p s d l dat c0 c1 c2 c3 c4 c5 _ c7, 6 => .mk p s d l dat c0 c1 c2 c3 c4 c5 v c7
  | .mk p s d l dat c0 c1 c2 c3 c4 c5 c6 _, 7 => .mk p s d l dat c0 c1 c2 c3 c4 c5 c6 v
  | m, _ => m

/-- Overwrite of the payload list, `root.data = ...`. -/
def OctNode.setData (n : OctNode) (d : List ObjData) : OctNode :=
  match n with
  | .mk p s dep l _ c0 c1 c2 c3 c4 c5 c6 c7 => .mk p s dep l d c0 c1 c2 c3 c4 c5 c6 c7

/-- Overwrite of the leaf flag, `root.isLeafNode = ...`. -/
def OctNode.setLeaf (n : OctNode) (l : Bool) : OctNode :=
  match n with
  | .mk p s dep _ dat c0 c1 c2 c3 c4 c5 c6 c7 => .mk p s dep l dat c0 c1 c2 c3 c4 c5 c6 c7

/-- `OctNode.__init__`: a fresh node is a leaf with the given data and
eight empty branches. -/
def OctNode.create (position : Pt3) (size : ℚ) (depth : ℕ) (data : List ObjData) : OctNode :=
  .mk position size depth true data none none none none none none none none

/-- The cube's lower bounding corner, `position - size/2` on each axis. -/
def OctNode.lower (n : OctNode) : Pt3 :=
  ⟨n.position.x - n.size / 2, n.position.y - n.size / 2, n.position.z - n.size / 2⟩

/-- The cube's upper bounding corner, `position + size/2` on each axis. -/
def OctNode.upper (n : OctNode) : Pt3 :=
  ⟨n.position.x + n.size / 2, n.position.y + n.size / 2, n.position.z + n.size / 2⟩

/-- `Octree.__findBranch`: the 3-bit branch index, `|= 4` when
`position[0] >= root.position[0]`, `|= 2` for y, `|= 1` for z. -/
def findBranch (root : OctNode) (position : Pt3) : ℕ :=
  let i1 : ℕ := if root.position.x ≤ position.x then 0 ||| 4 else 0
  let i2 : ℕ := if root.position.y ≤ position.y then i1 ||| 2 else i1
  if root.position.z ≤ position.z then i2 ||| 1 else i2

/-- The eight-way `if branch == 0: ... elif branch == 7:` chain computing
`newCenter` in `__insertNode`; the source initializes `newCenter = (0,0,0)`
before the chain, hence the (unreachable for 0..7) default. -/
def newCenterFor (pos : Pt3) (offset : ℚ) (branch : ℕ) : Pt3 :=
  if branch = 0 then ⟨pos.x - offset, pos.y - offset, pos.z - offset⟩
  else if branch = 1 then ⟨pos.x - offset, pos.y - offset, pos.z + offset⟩
  else if branch = 2 then ⟨pos.x - offset, pos.y + offset, pos.z - offset⟩
  else if branch = 3 then ⟨pos.x - offset, pos.y + offset, pos.z + offset⟩
  else if branch = 4 then ⟨pos.x + offset, pos.y - offset, pos.z - offset⟩
  else if branch = 5 then ⟨pos.x + offset, pos.y - offset, pos.z + offset⟩
  else if branch = 6 then ⟨pos.x + offset, pos.y + offset, pos.z - offset⟩
  else if branch = 7 then ⟨pos.x + offset, pos.y + offset, pos.z + offset⟩
  else ⟨0, 0, 0⟩

/-- `Octree.__insertNode`, with fuel.  `ln` is `self.limit_nodes`, `lim` is
`self.limit`.  The `root` argument is `None` or a node; the result is
`none` exactly when the recursion does not finish within `fuel`.
The subdivision loop `for ob in objList: ... root.branches[branch] =
self.__insertNode(root.branches[branch], newSize, root, pos, ob)` is the
`foldl` threading the mutated `root`. -/
def insertNodeAux (ln : Bool) (lim : ℕ) :
    ℕ → Option OctNode → ℚ → OctNode → Pt3 → ObjData → Option OctNode
  | 0, _, _, _, _, _ => none
  | _ + 1, none, size, parent, position, objData =>
      let offset := size / 2
      let branch := findBranch parent position
      let newCenter := newCenterFor parent.position offset branch
      some (OctNode.create newCenter size (parent.depth + 1) [objData])
  | fuel + 1, some root, _size, _parent, position, objData =>
      if root.position ≠ position ∧ root.isLeafNode = false then
        let branch := findBranch root position
        let newSize := root.size / 2
        match insertNodeAux ln lim fuel (root.getBranch branch) newSize root position objData with
        | none => none
        | some child => some (root.setBranch branch (some child))
      else if root.isLeafNode = true then
        if (ln = true ∧ root.data.length < lim) ∨ (ln = false ∧ lim ≤ root.depth) then
          some (root.setData (root.data ++ [objData]))
        else
          let objList := root.data ++ [objData]
          let root1 := (root.setData []).setLeaf false
          let newSize := root.size / 2
          objList.foldl
            (fun acc ob =>
              match acc with
              | none => none
              | some r =>
                  let pos := obPos ob
                  let branch := findBranch r pos
                  match insertNodeAux ln lim fuel (r.getBranch branch) newSize r pos ob with
                  | none => none
                  | some child => some (r.setBranch branch (some child)))
            (some root1)
      else
        some root
termination_by structural fuel _ _ _ _ _ => fuel

/-- `Octree.__init__` stores the root node, the world size and the split
policy; `insertNode` reads `lower`/`upper` off the root. -/
structure Octree where
  root : OctNode
  worldSize : ℚ
  limit_nodes : Bool
  limit : ℕ

/-- `Octree.__init__(worldSize, origin, max_type, max_value)`: the root is
a fresh leaf of size `worldSize` at `origin` with no data; no validation of
any argument is performed. -/
def octreeInit (worldSize : ℚ) (origin : Pt3) (max_type : String) (max_value : ℕ) : Octree :=
  ⟨OctNode.create origin worldSize 0 [], worldSize, max_type == "nodes", max_value⟩

deriving instance DecidableEq for Octree

/-- Result of the public `insertNode`: the source returns `None` when the
position fails the (lexicographic) bounds test, and otherwise returns the
node `__insertNode` hands back (the mutated root).  `fuelExhausted` is the
model's name for a recursion that never returns. -/
inductive InsertResult where
  | outOfBounds
  | fuelExhausted
  | ok (root : OctNode)

deriving instance DecidableEq for InsertResult

/-- `Octree.insertNode`: bounds test against `self.root.lower` /
`self.root.upper` with Python tuple (lexicographic) comparison, defaulting
`objData` to the position, then the recursive insert on the root. -/
def Octree.insertNode (t : Octree) (fuel : ℕ) (position : Pt3) (objData : Option ObjData) :
    InsertResult :=
  if tupLt position t.root.lower then .outOfBounds
  else if tupLt t.root.upper position then .outOfBounds
  else
    let ob := objData.getD (ObjData.raw position)
    match insertNodeAux t.limit_nodes t.limit fuel (some t.root) t.root.size t.root position ob with
    | none => .fuelExhausted
    | some r => .ok r

/-- `Octree.__findPosition`: at a leaf return its data, otherwise follow
the branch index; an empty slot means not found.  (The source's `count` and
`branch` parameters are dead.)  The eight-way match unrolls the source's
`node.branches[branch]` over the eight slots so the recursion is
structural. -/
def findPositionAux : OctNode → Pt3 → Option (List ObjData)
  | .mk p s d l dat c0 c1 c2 c3 c4 c5 c6 c7, position =>
    if l then some dat
    else
      match findBranch (.mk p s d l dat c0 c1 c2 c3 c4 c5 c6 c7) position, c0, c1, c2, c3, c4, c5, c6, c7 with
      | 0, some child, _, _, _, _, _, _, _ => findPositionAux child position
      | 1, _, some child, _, _, _, _, _, _ => findPositionAux child position
      | 2, _, _, some child, _, _, _, _, _ => findPositionAux child position
      | 3, _, _, _, some child, _, _, _, _ => findPositionAux child position
      | 4, _, _, _, _, some child, _, _, _ => findPositionAux child position
      | 5, _, _, _, _, _, some child, _, _ => findPositionAux child position
      | 6, _, _, _, _, _, _, some child, _ => findPositionAux child position
      | 7, _, _, _, _, _, _, _, some child => findPositionAux child position
      | _, _, _, _, _, _, _, _, _ => none

/-- `Octree.findPosition`: the same lexicographic bounds test as
`insertNode`, then the recursive lookup starting at the root. -/
def Octree.findPosition (t : Octree) (position : Pt3) : Option (List ObjData) :=
  if tupLt position t.root.lower then none
  else if tupLt t.root.upper position then none
  else findPositionAux t.root position

mutual

/-- `Octree.__iterateDepthFirst`, flattened from a generator to the list of
yielded nodes: for each branch slot in index order 0..7, skip it if empty,
otherwise recurse into it and then yield the branch itself if it is a leaf.
The node passed in is itself never yielded, so `iterateDepthFirst` never
yields the root. -/
def iterateDepthFirstAux : OctNode → List OctNode
  | .mk _ _ _ _ _ c0 c1 c2 c3 c4 c5 c6 c7 =>
      iterBranch c0 ++ iterBranch c1 ++ iterBranch c2 ++ iterBranch c3 ++
        iterBranch c4 ++ iterBranch c5 ++ iterBranch c6 ++ iterBranch c7

/-- One branch slot of the traversal: nothing for an empty slot, otherwise
the recursion's output followed by the branch node itself when it is a
leaf. -/
def iterBranch : Option OctNode → List OctNode
  | none => []
  | some br => iterateDepthFirstAux br ++ (if br.isLeafNode then [br] else [])

end

/-- `Octree.iterateDepthFirst` drains `__iterateDepthFirst(self.root)`. -/
def Octree.iterateDepthFirst (t : Octree) : List OctNode :=
  iterateDepthFirstAux t.root

mutual

/-- Every node of the tree: the node itself and, recursively, every node
reachable through a non-empty branch slot.  (Harness notion used to state
tree-wide properties; not a function of the source.) -/
def allNodes : OctNode → List OctNode
  | .mk p s d l dat c0 c1 c2 c3 c4 c5 c6 c7 =>
      .mk p s d l dat c0 c1 c2 c3 c4 c5 c6 c7 ::
        (allNodesB c0 ++ allNodesB c1 ++ allNodesB c2 ++ allNodesB c3 ++
          allNodesB c4 ++ allNodesB c5 ++ allNodesB c6 ++ allNodesB c7)

/-- Nodes reachable through one optional branch slot. -/
def allNodesB : Option OctNode → List OctNode
  | none => []
  | some c => allNodes c

end

mutual

/-- Structural well-formedness of a tree, satisfied by every tree reachable
through the `Octree` interface (proved below): the size is positive, a leaf
has eight empty branches, and each present child has half its parent's
size, depth one deeper, and the center `newCenterFor` assigns to its branch
index with offset a quarter of the parent's size. -/
def wfb : OctNode → Bool
  | .mk p s d l _ c0 c1 c2 c3 c4 c5 c6 c7 =>
      decide (0 < s) &&
        (!l || (c0.isNone && c1.isNone && c2.isNone && c3.isNone &&
          c4.isNone && c5.isNone && c6.isNone && c7.isNone)) &&
        wfbB p s d 0 c0 && wfbB p s d 1 c1 && wfbB p s d 2 c2 && wfbB p s d 3 c3 &&
        wfbB p s d 4 c4 && wfbB p s d 5 c5 && wfbB p s d 6 c6 && wfbB p s d 7 c7

/-- Well-formedness of one branch slot of a node with center `p`, size `s`
and depth `d`: empty, or a well-formed child standing in the documented
geometric relation for branch index `b`. -/
def wfbB : Pt3 → ℚ → ℕ → ℕ → Option OctNode → Bool
  | _, _, _, _, none => true
  | p, s, d, b, some c =>
      decide (c.size = s / 2) && decide (c.depth = d + 1) &&
        decide (c.position = newCenterFor p (s / 4) b) && wfb c

end

mutual

/-- Every leaf in the tree holds at most `lim` payloads. -/
def leafCountOK (lim : ℕ) : OctNode → Bool
  | .mk _ _ _ l dat c0 c1 c2 c3 c4 c5 c6 c7 =>
      (!l || decide (dat.length ≤ lim)) &&
        leafCountOKB lim c0 && leafCountOKB lim c1 && leafCountOKB lim c2 &&
        leafCountOKB lim c3 && leafCountOKB lim c4 && leafCountOKB lim c5 &&
        leafCountOKB lim c6 && leafCountOKB lim c7

/-- Leaf payload bound for one optional branch slot. -/
def leafCountOKB (lim : ℕ) : Option OctNode → Bool
  | none => true
  | some c => leafCountOK lim c

end

mutual

/-- Height of a tree: 1 plus the maximal height of a child; used only to
supply enough fuel for descents that do not subdivide. -/
def height : OctNode → ℕ
  | .mk _ _ _ _ _ c0 c1 c2 c3 c4 c5 c6 c7 =>
      1 + max (heightB c0) (max (heightB c1) (max (heightB c2) (max (heightB c3)
        (max (heightB c4) (max (heightB c5) (max (heightB c6) (heightB c7)))))))

/-- Height of one optional branch slot. -/
def heightB : Option OctNode → ℕ
  | none => 0
  | some c => height c

end

/-- Repeated public inserts, as the demo harness performs them: an
out-of-bounds insert leaves the tree untouched (the source just returns
`None` to the caller), and a recursion that does not finish within the
fuel aborts the whole sequence. -/
def Octree.insertSeq (t : Octree) (fuel : ℕ) (ops : List (Pt3 × Option ObjData)) :
    Option Octree :=
  ops.foldl
    (fun acc op =>
      match acc with
      | none => none
      | some t2 =>
          match t2.insertNode fuel op.1 op.2 with
          | .outOfBounds => some t2
          | .fuelExhausted => none
          | .ok r => some { t2 with root := r })
    (some t)

/-- Payload with identity 1 at position (10, 10, 10). -/
def obA : ObjData := .positioned 1 ⟨10, 10, 10⟩

/-- Payload with identity 2 at position (-10, -10, -10). -/
def obB : ObjData := .positioned 2 ⟨-10, -10, -10⟩

/-- Payload with identity 3 at position (0, 0, 0). -/
def obC : ObjData := .positioned 3 ⟨0, 0, 0⟩

/-- World size 100, origin (0,0,0), count-limited with limit 1. -/
def treeCfg1 : Octree := octreeInit 100 ⟨0, 0, 0⟩ "nodes" 1

/-- The tree `treeCfg1` reaches after inserting `obA` at (10,10,10) and
`obB` at (-10,-10,-10): the root has subdivided into a leaf at branch 0
holding `obB` and a leaf at branch 7 holding `obA`. -/
def treeSplit : Octree :=
  ⟨.mk ⟨0, 0, 0⟩ 100 0 false []
      (some (OctNode.create ⟨-25, -25, -25⟩ 50 1 [obB])) none none none
      none none none (some (OctNode.create ⟨25, 25, 25⟩ 50 1 [obA])),
    100, true, 1⟩


/-- World size 100, origin (0,0,0), count-limited with limit 10. -/
def treeCfg10 : Octree := octreeInit 100 ⟨0, 0, 0⟩ "nodes" 10

/-- The tree `treeCfg10` reaches after inserting `obA` alone: the root is
still a leaf and holds the single payload. -/
def treeOneLeaf : Octree := ⟨OctNode.create ⟨0, 0, 0⟩ 100 0 [obA], 100, true, 10⟩

/-- Payload with identity `i` at position (5,5,5). -/
def obAt5 (i : ℕ) : ObjData := .positioned i ⟨5, 5, 5⟩

/-- Ten insertions of payloads with distinct identities, all at (5,5,5). -/
def opsTenAt5 : List (Pt3 × Option ObjData) :=
  (List.range 10).map (fun i => (⟨5, 5, 5⟩, some (obAt5 i)))

/-- The tree `treeCfg10` reaches after the ten coincident inserts: a single
root leaf holding all ten payloads. -/
def treeTenAt5 : Octree :=
  ⟨OctNode.create ⟨0, 0, 0⟩ 100 0 ((List.range 10).map obAt5), 100, true, 10⟩

/-! ## Theorems -/

/-- C6: for every node center and target position, the branch index is the
3-bit code with bit 2 set iff `position.x ≥ center.x`, bit 1 iff
`position.y ≥ center.y`, bit 0 iff `position.z ≥ center.z` (so a position
exactly on a boundary plane resolves to the "+" side of that axis), and it
always lies in 0..7. -/
theorem claimC6 : ∀ (n : OctNode) (p : Pt3),
    (findBranch n p).testBit 2 = decide (n.position.x ≤ p.x) ∧
    (findBranch n p).testBit 1 = decide (n.position.y ≤ p.y) ∧
    (findBranch n p).testBit 0 = decide (n.position.z ≤ p.z) ∧
    findBranch n p < 8 := by
  intro n p
  by_cases h1 : n.position.x ≤ p.x <;> by_cases h2 : n.position.y ≤ p.y <;>
    by_cases h3 : n.position.z ≤ p.z <;>
    simp [findBranch, h1, h2, h3] <;> decide

/-- C1: inserting a payload at an in-bounds position does not guarantee a
subsequent query at that position returns it: after `treeSplit` is built,
the insert of `obC` at the root center (0,0,0), an in-bounds position,
reports success and leaves the tree unchanged, and the query at (0,0,0)
returns a sequence not containing `obC`. -/
theorem claimC1_eval :
    treeCfg1.insertSeq 10 [(⟨10, 10, 10⟩, some obA), (⟨-10, -10, -10⟩, some obB)] =
        some treeSplit ∧
    inBox ⟨0, 0, 0⟩ treeSplit.root.lower treeSplit.root.upper = true ∧
    treeSplit.insertNode 10 ⟨0, 0, 0⟩ (some obC) = .ok treeSplit.root ∧
    treeSplit.findPosition ⟨0, 0, 0⟩ = some [obA] ∧
    obC ∉ [obA] := by
  refine ⟨by decide, by decide, by decide, by decide, by decide⟩

/-- C2: the bounds test is Python's lexicographic tuple comparison, not a
componentwise box test: (0, 100, 0) lies outside the world cube on the y
axis, yet `insertNode` accepts it (mutating the tree) and `findPosition`
returns the root leaf's data instead of "not found". -/
theorem claimC2_eval :
    inBox ⟨0, 100, 0⟩ treeCfg1.root.lower treeCfg1.root.upper = false ∧
    treeCfg1.insertNode 10 ⟨0, 100, 0⟩ (some obC) =
        .ok (OctNode.create ⟨0, 0, 0⟩ 100 0 [obC]) ∧
    treeCfg1.findPosition ⟨0, 100, 0⟩ = some [] := by
  refine ⟨by decide, by decide, by decide⟩

/-- C3: the depth-first traversal does not yield every leaf (a root that is
still a leaf is never yielded even when it holds payloads), and inserting N
payloads at N distinct in-bounds positions can lose a payload: after the
three distinct in-bounds inserts below, the traversal's leaves hold 2
payloads, not 3. -/
theorem claimC3_eval :
    treeCfg10.insertSeq 10 [(⟨10, 10, 10⟩, some obA)] = some treeOneLeaf ∧
    treeOneLeaf.root.isLeafNode = true ∧
    treeOneLeaf.root.data = [obA] ∧
    treeOneLeaf.iterateDepthFirst = [] ∧
    treeCfg1.insertSeq 10
        [(⟨10, 10, 10⟩, some obA), (⟨-10, -10, -10⟩, some obB), (⟨0, 0, 0⟩, some obC)] =
      some treeSplit ∧
    treeSplit.iterateDepthFirst.foldl (fun acc n => acc ++ n.data) [] = [obB, obA] := by
  refine ⟨by decide, by decide, by decide, by decide, by decide, by decide⟩

/-- C9: with world size 100, origin (0,0,0) and count limit 1, inserting
(10,10,10) then (-10,-10,-10) subdivides the root into exactly two leaves,
at branch indices 7 and 0, each holding one payload. -/
theorem claimC9 :
    treeCfg1.insertSeq 10 [(⟨10, 10, 10⟩, some obA), (⟨-10, -10, -10⟩, some obB)] =
        some treeSplit ∧
    treeSplit.root.isLeafNode = false ∧
    (allNodes treeSplit.root).filter (fun n => n.isLeafNode) =
        [OctNode.create ⟨-25, -25, -25⟩ 50 1 [obB], OctNode.create ⟨25, 25, 25⟩ 50 1 [obA]] ∧
    findBranch treeSplit.root ⟨10, 10, 10⟩ = 7 ∧
    treeSplit.root.getBranch 7 = some (OctNode.create ⟨25, 25, 25⟩ 50 1 [obA]) ∧
    findBranch treeSplit.root ⟨-10, -10, -10⟩ = 0 ∧
    treeSplit.root.getBranch 0 = some (OctNode.create ⟨-25, -25, -25⟩ 50 1 [obB]) := by
  refine ⟨by decide, by decide, by decide, by decide, by decide, by decide, by decide⟩

/-- C10 counterexample: constructing with non-positive world size or limit
is not rejected; with world size -1 and limit 0 the constructor produces an
ordinary tree recording those values, and with world size 0 and limit 0 the
resulting tree even accepts an insert at the origin. -/
theorem claimC10_cex :
    (octreeInit (-1) ⟨0, 0, 0⟩ "nodes" 0).root = OctNode.create ⟨0, 0, 0⟩ (-1) 0 [] ∧
    (octreeInit (-1) ⟨0, 0, 0⟩ "nodes" 0).worldSize = -1 ∧
    (octreeInit (-1) ⟨0, 0, 0⟩ "nodes" 0).limit = 0 ∧
    (octreeInit 0 ⟨0, 0, 0⟩ "nodes" 0).insertNode 5 ⟨0, 0, 0⟩ (some obC) ≠ .outOfBounds := by
  refine ⟨by decide, by decide, by decide, by decide⟩

/-- C10 amended: construction performs no validation at all: for every
world size, origin, policy and limit (non-positive values included) the
constructor returns an ordinary tree whose root is a fresh leaf of the
given size at the origin with the given policy recorded, and insertion at
the origin of even a size-0 tree is not rejected as out of bounds. -/
theorem claimC10 : ∀ (w : ℚ) (o : Pt3) (mt : String) (mv : ℕ),
    octreeInit w o mt mv = ⟨OctNode.create o w 0 [], w, mt == "nodes", mv⟩ ∧
    (octreeInit 0 o mt 0).insertNode 2 o none ≠ .outOfBounds := by
  intro w o mt mv
  constructor
  · rfl
  · show ¬ _
    unfold Octree.insertNode
    have hlow : tupLt o (octreeInit 0 o mt 0).root.lower = false := by
      simp [tupLt, octreeInit, OctNode.lower, OctNode.create, OctNode.position, OctNode.size]
    have hup : tupLt (octreeInit 0 o mt 0).root.upper o = false := by
      simp [tupLt, octreeInit, OctNode.upper, OctNode.create, OctNode.position, OctNode.size]
    rw [hlow, hup]
    simp only [Bool.false_eq_true, if_false]
    cases insertNodeAux (octreeInit 0 o mt 0).limit_nodes (octreeInit 0 o mt 0).limit 2
        (some (octreeInit 0 o mt 0).root) (octreeInit 0 o mt 0).root.size
        (octreeInit 0 o mt 0).root o (((none : Option ObjData)).getD (ObjData.raw o)) <;>
      simp

/-! ### Structural helper lemmas -/

theorem findBranch_lt_eight (n : OctNode) (p : Pt3) : findBranch n p < 8 := by
  by_cases h1 : n.position.x ≤ p.x <;> by_cases h2 : n.position.y ≤ p.y <;>
    by_cases h3 : n.position.z ≤ p.z <;> simp [findBranch, h1, h2, h3]

theorem setBranch_position (n : OctNode) (b : ℕ) (v : Option OctNode) :
    (n.setBranch b v).position = n.position := by
  cases n
  rcases b with _ | _ | _ | _ | _ | _ | _ | _ | b <;> rfl

theorem setBranch_size (n : OctNode) (b : ℕ) (v : Option OctNode) :
    (n.setBranch b v).size = n.size := by
  cases n
  rcases b with _ | _ | _ | _ | _ | _ | _ | _ | b <;> rfl

theorem setBranch_depth (n : OctNode) (b : ℕ) (v : Option OctNode) :
    (n.setBranch b v).depth = n.depth := by
  cases n
  rcases b with _ | _ | _ | _ | _ | _ | _ | _ | b <;> rfl

theorem setBranch_isLeafNode (n : OctNode) (b : ℕ) (v : Option OctNode) :
    (n.setBranch b v).isLeafNode = n.isLeafNode := by
  cases n
  rcases b with _ | _ | _ | _ | _ | _ | _ | _ | b <;> rfl

theorem setBranch_data (n : OctNode) (b : ℕ) (v : Option OctNode) :
    (n.setBranch b v).data = n.data := by
  cases n
  rcases b with _ | _ | _ | _ | _ | _ | _ | _ | b <;> rfl

theorem getBranch_setBranch_self (n : OctNode) (b : ℕ) (v : Option OctNode) (hb : b < 8) :
    (n.setBranch b v).getBranch b = v := by
  cases n
  rcases b with _ | _ | _ | _ | _ | _ | _ | _ | b <;> first | rfl | omega

theorem getBranch_setBranch_ne (n : OctNode) (b b' : ℕ) (v : Option OctNode) (hne : b' ≠ b) :
    (n.setBranch b v).getBranch b' = n.getBranch b' := by
  cases n
  rcases b with _ | _ | _ | _ | _ | _ | _ | _ | b <;>
    rcases b' with _ | _ | _ | _ | _ | _ | _ | _ | b' <;>
    first | rfl | omega

theorem setBranch_eq_self (n : OctNode) (b : ℕ) (v : Option OctNode)
    (h : n.getBranch b = v) : n.setBranch b v = n := by
  cases n
  rcases b with _ | _ | _ | _ | _ | _ | _ | _ | b <;> simp_all [OctNode.getBranch, OctNode.setBranch,
    OctNode.b0, OctNode.b1, OctNode.b2, OctNode.b3, OctNode.b4, OctNode.b5, OctNode.b6, OctNode.b7]

theorem setData_position (n : OctNode) (d : List ObjData) : (n.setData d).position = n.position := by
  cases n; rfl

theorem setData_size (n : OctNode) (d : List ObjData) : (n.setData d).size = n.size := by
  cases n; rfl

theorem setData_depth (n : OctNode) (d : List ObjData) : (n.setData d).depth = n.depth := by
  cases n; rfl

theorem setData_isLeafNode (n : OctNode) (d : List ObjData) :
    (n.setData d).isLeafNode = n.isLeafNode := by
  cases n; rfl

theorem setData_data (n : OctNode) (d : List ObjData) : (n.setData d).data = d := by
  cases n; rfl

theorem setData_getBranch (n : OctNode) (d : List ObjData) (b : ℕ) :
    (n.setData d).getBranch b = n.getBranch b := by
  cases n
  rcases b with _ | _ | _ | _ | _ | _ | _ | _ | b <;> rfl

theorem setLeaf_position (n : OctNode) (l : Bool) : (n.setLeaf l).position = n.position := by
  cases n; rfl

theorem setLeaf_size (n : OctNode) (l : Bool) : (n.setLeaf l).size = n.size := by
  cases n; rfl

theorem setLeaf_depth (n : OctNode) (l : Bool) : (n.setLeaf l).depth = n.depth := by
  cases n; rfl

theorem setLeaf_isLeafNode (n : OctNode) (l : Bool) : (n.setLeaf l).isLeafNode = l := by
  cases n; rfl

theorem setLeaf_data (n : OctNode) (l : Bool) : (n.setLeaf l).data = n.data := by
  cases n; rfl

theorem setLeaf_getBranch (n : OctNode) (l : Bool) (b : ℕ) :
    (n.setLeaf l).getBranch b = n.getBranch b := by
  cases n
  rcases b with _ | _ | _ | _ | _ | _ | _ | _ | b <;> rfl

theorem create_position (p : Pt3) (s : ℚ) (d : ℕ) (dat : List ObjData) :
    (OctNode.create p s d dat).position = p := rfl

theorem create_size (p : Pt3) (s : ℚ) (d : ℕ) (dat : List ObjData) :
    (OctNode.create p s d dat).size = s := rfl

theorem create_depth (p : Pt3) (s : ℚ) (d : ℕ) (dat : List ObjData) :
    (OctNode.create p s d dat).depth = d := rfl

theorem create_isLeafNode (p : Pt3) (s : ℚ) (d : ℕ) (dat : List ObjData) :
    (OctNode.create p s d dat).isLeafNode = true := rfl

theorem create_data (p : Pt3) (s : ℚ) (d : ℕ) (dat : List ObjData) :
    (OctNode.create p s d dat).data = dat := rfl

theorem create_getBranch (p : Pt3) (s : ℚ) (d : ℕ) (dat : List ObjData) (b : ℕ) :
    (OctNode.create p s d dat).getBranch b = none := by
  rcases b with _ | _ | _ | _ | _ | _ | _ | _ | b <;> rfl

/-- A generic fold-invariant principle used for the subdivision loop. -/
theorem foldl_inv {α β : Type} (f : β → α → β) (P : β → Prop) :
    ∀ (l : List α) (b : β), P b → (∀ x a, a ∈ l → P x → P (f x a)) → P (l.foldl f b) := by
  intro l
  induction l with
  | nil => intro b hb _; exact hb
  | cons a rest ih =>
      intro b hb hstep
      exact ih (f b a) (hstep b a (List.mem_cons_self a rest) hb)
        (fun x a2 ha2 hx => hstep x a2 (List.mem_cons_of_mem a ha2) hx)

/-- Strong induction on the size of a node; the nested recursor of
`OctNode` is awkward to use directly, so tree inductions below go through
`sizeOf`. -/
theorem OctNode.strong_ind {motive : OctNode → Prop}
    (h : ∀ n, (∀ m, sizeOf m < sizeOf n → motive m) → motive n) : ∀ n, motive n := by
  have key : ∀ (k : ℕ) (n : OctNode), sizeOf n ≤ k → motive n := by
    intro k
    induction k with
    | zero =>
        intro n hn
        exact h n (fun m hm => absurd (Nat.lt_of_lt_of_le hm hn) (Nat.not_lt_zero _))
    | succ k ih =>
        intro n hn
        exact h n (fun m hm => ih m (Nat.le_of_lt_succ (Nat.lt_of_lt_of_le hm hn)))
  exact fun n => key (sizeOf n) n (Nat.le_refl _)

theorem getBranch_sizeOf {n : OctNode} {b : ℕ} {c : OctNode}
    (h : n.getBranch b = some c) : sizeOf c < sizeOf n := by
  cases n with
  | mk p s d l dat c0 c1 c2 c3 c4 c5 c6 c7 =>
      rcases b with _ | _ | _ | _ | _ | _ | _ | _ | b <;>
        simp only [OctNode.getBranch, OctNode.b0, OctNode.b1, OctNode.b2, OctNode.b3,
          OctNode.b4, OctNode.b5, OctNode.b6, OctNode.b7] at h <;>
        first
          | (subst h; simp only [OctNode.mk.sizeOf_spec, Option.some.sizeOf_spec]; omega)
          | exact absurd h (by simp)

/-- Unfolding characterization of one well-formedness slot. -/
theorem wfbB_iff (p : Pt3) (s : ℚ) (d : ℕ) (b : ℕ) (c? : Option OctNode) :
    wfbB p s d b c? = true ↔
      ∀ c, c? = some c → c.size = s / 2 ∧ c.depth = d + 1 ∧
        c.position = newCenterFor p (s / 4) b ∧ wfb c = true := by
  cases c? <;> simp [wfbB, and_assoc]

/-- Unfolding characterization of well-formedness in terms of the
accessors. -/
theorem wfb_iff (n : OctNode) : wfb n = true ↔
    0 < n.size ∧
    (n.isLeafNode = true → ∀ b : ℕ, n.getBranch b = none) ∧
    (∀ (b : ℕ) (c : OctNode), n.getBranch b = some c →
      c.size = n.size / 2 ∧ c.depth = n.depth + 1 ∧
      c.position = newCenterFor n.position (n.size / 4) b ∧ wfb c = true) := by
  cases n with
  | mk p s d l dat c0 c1 c2 c3 c4 c5 c6 c7 =>
      simp only [wfb, Bool.and_eq_true, decide_eq_true_eq, wfbB_iff, Bool.or_eq_true,
        Bool.not_eq_true', Bool.and_eq_true, Option.isNone_iff_eq_none,
        OctNode.size, OctNode.depth, OctNode.position, OctNode.isLeafNode]
      constructor
      · rintro ⟨⟨⟨⟨⟨⟨⟨⟨⟨hs, hleaf⟩, h0⟩, h1⟩, h2⟩, h3⟩, h4⟩, h5⟩, h6⟩, h7⟩
        refine ⟨hs, ?_, ?_⟩
        · intro hl b
          rcases hleaf with hl' | hnone
          · rw [hl] at hl'; cases hl'
          · rcases b with _ | _ | _ | _ | _ | _ | _ | _ | b <;>
              simp [OctNode.getBranch, OctNode.b0, OctNode.b1, OctNode.b2, OctNode.b3,
                OctNode.b4, OctNode.b5, OctNode.b6, OctNode.b7, hnone]
        · intro b c hbc
          rcases b with _ | _ | _ | _ | _ | _ | _ | _ | b <;>
            simp only [OctNode.getBranch, OctNode.b0, OctNode.b1, OctNode.b2, OctNode.b3,
              OctNode.b4, OctNode.b5, OctNode.b6, OctNode.b7] at hbc
          · exact h0 c hbc
          · exact h1 c hbc
          · exact h2 c hbc
          · exact h3 c hbc
          · exact h4 c hbc
          · exact h5 c hbc
          · exact h6 c hbc
          · exact h7 c hbc
          · cases hbc
      · rintro ⟨hs, hleaf, hch⟩
        have hget : ∀ b : ℕ, (OctNode.mk p s d l dat c0 c1 c2 c3 c4 c5 c6 c7).getBranch b =
            OctNode.getBranch (OctNode.mk p s d l dat c0 c1 c2 c3 c4 c5 c6 c7) b := fun _ => rfl
        refine ⟨⟨⟨⟨⟨⟨⟨⟨⟨hs, ?_⟩, ?_⟩, ?_⟩, ?_⟩, ?_⟩, ?_⟩, ?_⟩, ?_⟩, ?_⟩
        · cases l with
          | false => exact Or.inl rfl
          | true =>
              right
              repeat' apply And.intro
              all_goals first
                | exact hleaf rfl 0 | exact hleaf rfl 1 | exact hleaf rfl 2 | exact hleaf rfl 3
                | exact hleaf rfl 4 | exact hleaf rfl 5 | exact hleaf rfl 6 | exact hleaf rfl 7
        · exact fun c hc => hch 0 c hc
        · exact fun c hc => hch 1 c hc
        · exact fun c hc => hch 2 c hc
        · exact fun c hc => hch 3 c hc
        · exact fun c hc => hch 4 c hc
        · exact fun c hc => hch 5 c hc
        · exact fun c hc => hch 6 c hc
        · exact fun c hc => hch 7 c hc

/-- Unfolding characterization of the leaf payload bound. -/
theorem leafCountOK_iff (lim : ℕ) (n : OctNode) : leafCountOK lim n = true ↔
    (n.isLeafNode = true → n.data.length ≤ lim) ∧
    (∀ (b : ℕ) (c : OctNode), n.getBranch b = some c → leafCountOK lim c = true) := by
  cases n with
  | mk p s d l dat c0 c1 c2 c3 c4 c5 c6 c7 =>
      simp only [leafCountOK, Bool.and_eq_true, Bool.or_eq_true, Bool.not_eq_true',
        decide_eq_true_eq, OctNode.isLeafNode, OctNode.data]
      have hB : ∀ c? : Option OctNode, leafCountOKB lim c? = true ↔
          ∀ c, c? = some c → leafCountOK lim c = true := by
        intro c?; cases c? <;> simp [leafCountOKB]
      constructor
      · rintro ⟨⟨⟨⟨⟨⟨⟨⟨hl, h0⟩, h1⟩, h2⟩, h3⟩, h4⟩, h5⟩, h6⟩, h7⟩
        refine ⟨?_, ?_⟩
        · intro hleaf
          rcases hl with hl' | hlen
          · rw [hleaf] at hl'; cases hl'
          · exact hlen
        · intro b c hbc
          rw [hB] at h0 h1 h2 h3 h4 h5 h6 h7
          rcases b with _ | _ | _ | _ | _ | _ | _ | _ | b <;>
            simp only [OctNode.getBranch, OctNode.b0, OctNode.b1, OctNode.b2, OctNode.b3,
              OctNode.b4, OctNode.b5, OctNode.b6, OctNode.b7] at hbc
          · exact h0 c hbc
          · exact h1 c hbc
          · exact h2 c hbc
          · exact h3 c hbc
          · exact h4 c hbc
          · exact h5 c hbc
          · exact h6 c hbc
          · exact h7 c hbc
          · cases hbc
      · rintro ⟨hleaf, hch⟩
        refine ⟨⟨⟨⟨⟨⟨⟨⟨?_, ?_⟩, ?_⟩, ?_⟩, ?_⟩, ?_⟩, ?_⟩, ?_⟩, ?_⟩
        · cases l with
          | false => exact Or.inl rfl
          | true => exact Or.inr (hleaf rfl)
        all_goals rw [hB]
        · exact fun c hc => hch 0 c hc
        · exact fun c hc => hch 1 c hc
        · exact fun c hc => hch 2 c hc
        · exact fun c hc => hch 3 c hc
        · exact fun c hc => hch 4 c hc
        · exact fun c hc => hch 5 c hc
        · exact fun c hc => hch 6 c hc
        · exact fun c hc => hch 7 c hc

/-- Membership in `allNodes` unfolds to "the node itself or a node of some
child subtree". -/
theorem mem_allNodes_iff (c n : OctNode) : c ∈ allNodes n ↔
    c = n ∨ ∃ (b : ℕ) (ch : OctNode), n.getBranch b = some ch ∧ c ∈ allNodes ch := by
  cases n with
  | mk p s d l dat c0 c1 c2 c3 c4 c5 c6 c7 =>
      have hB : ∀ c? : Option OctNode, (c ∈ allNodesB c?) ↔ ∃ ch, c? = some ch ∧ c ∈ allNodes ch := by
        intro c?; cases c? <;> simp [allNodesB]
      constructor
      · intro h
        simp only [allNodes, List.mem_cons, List.mem_append] at h
        rcases h with h | h
        · exact Or.inl h
        · refine Or.inr ?_
          rcases h with ((((((h | h) | h) | h) | h) | h) | h) | h
          · exact ⟨0, (hB c0).1 h⟩
          · exact ⟨1, (hB c1).1 h⟩
          · exact ⟨2, (hB c2).1 h⟩
          · exact ⟨3, (hB c3).1 h⟩
          · exact ⟨4, (hB c4).1 h⟩
          · exact ⟨5, (hB c5).1 h⟩
          · exact ⟨6, (hB c6).1 h⟩
          · exact ⟨7, (hB c7).1 h⟩
      · intro h
        simp only [allNodes, List.mem_cons, List.mem_append]
        rcases h with h | ⟨b, ch, hbc, hmem⟩
        · exact Or.inl h
        · refine Or.inr ?_
          rcases b with _ | _ | _ | _ | _ | _ | _ | _ | b <;>
            simp only [OctNode.getBranch, OctNode.b0, OctNode.b1, OctNode.b2, OctNode.b3,
              OctNode.b4, OctNode.b5, OctNode.b6, OctNode.b7] at hbc
          · exact Or.inl (Or.inl (Or.inl (Or.inl (Or.inl (Or.inl (Or.inl
              ((hB c0).2 ⟨ch, hbc, hmem⟩)))))))
          · exact Or.inl (Or.inl (Or.inl (Or.inl (Or.inl (Or.inl (Or.inr
              ((hB c1).2 ⟨ch, hbc, hmem⟩)))))))
          · exact Or.inl (Or.inl (Or.inl (Or.inl (Or.inl (Or.inr
              ((hB c2).2 ⟨ch, hbc, hmem⟩))))))
          · exact Or.inl (Or.inl (Or.inl (Or.inl (Or.inr
              ((hB c3).2 ⟨ch, hbc, hmem⟩)))))
          · exact Or.inl (Or.inl (Or.inl (Or.inr ((hB c4).2 ⟨ch, hbc, hmem⟩))))
          · exact Or.inl (Or.inl (Or.inr ((hB c5).2 ⟨ch, hbc, hmem⟩)))
          · exact Or.inl (Or.inr ((hB c6).2 ⟨ch, hbc, hmem⟩))
          · exact Or.inr ((hB c7).2 ⟨ch, hbc, hmem⟩)
          · cases hbc

theorem self_mem_allNodes (n : OctNode) : n ∈ allNodes n := by
  rw [mem_allNodes_iff]
  exact Or.inl rfl

theorem height_pos (n : OctNode) : 0 < height n := by
  cases n with
  | mk p s d l dat c0 c1 c2 c3 c4 c5 c6 c7 => simp [height]

theorem getBranch_height {n c : OctNode} {b : ℕ} (h : n.getBranch b = some c) :
    height c < height n := by
  cases n with
  | mk p s d l dat c0 c1 c2 c3 c4 c5 c6 c7 =>
      rcases b with _ | _ | _ | _ | _ | _ | _ | _ | b <;>
        simp only [OctNode.getBranch, OctNode.b0, OctNode.b1, OctNode.b2, OctNode.b3,
          OctNode.b4, OctNode.b5, OctNode.b6, OctNode.b7] at h <;>
        first
          | (subst h
             simp only [height, heightB]
             omega)
          | cases h

theorem wfb_size_pos {n : OctNode} (h : wfb n = true) : 0 < n.size :=
  ((wfb_iff n).1 h).1

theorem wfb_child_of_getBranch {n c : OctNode} {b : ℕ} (h : wfb n = true)
    (hbc : n.getBranch b = some c) : wfb c = true :=
  (((wfb_iff n).1 h).2.2 b c hbc).2.2.2

theorem half_half (s : ℚ) : s / 2 / 2 = s / 4 := by ring

/-- Installing a geometrically consistent, well-formed child into a non-leaf
node preserves well-formedness. -/
theorem wfb_setBranch_child {root child : OctNode} {b : ℕ}
    (hb : b < 8) (hroot : wfb root = true) (hleaf : root.isLeafNode = false)
    (hsize : child.size = root.size / 2) (hdepth : child.depth = root.depth + 1)
    (hposition : child.position = newCenterFor root.position (root.size / 4) b)
    (hchild : wfb child = true) :
    wfb (root.setBranch b (some child)) = true := by
  rw [wfb_iff]
  refine ⟨?_, ?_, ?_⟩
  · rw [setBranch_size]; exact wfb_size_pos hroot
  · intro hl
    rw [setBranch_isLeafNode, hleaf] at hl
    cases hl
  · intro b' c hbc
    rw [setBranch_size, setBranch_depth, setBranch_position]
    by_cases hbb : b' = b
    · subst hbb
      rw [getBranch_setBranch_self _ _ _ hb] at hbc
      injection hbc with hc
      subst hc
      exact ⟨hsize, hdepth, hposition, hchild⟩
    · rw [getBranch_setBranch_ne _ _ _ _ hbb] at hbc
      exact ((wfb_iff root).1 hroot).2.2 b' c hbc

/-- Clearing the data and leaf flag for subdivision preserves
well-formedness. -/
theorem wfb_subdivideShell {root : OctNode} (hroot : wfb root = true) :
    wfb ((root.setData []).setLeaf false) = true := by
  rw [wfb_iff]
  refine ⟨?_, ?_, ?_⟩
  · rw [setLeaf_size, setData_size]; exact wfb_size_pos hroot
  · intro hl
    rw [setLeaf_isLeafNode] at hl
    cases hl
  · intro b' c hbc
    rw [setLeaf_size, setData_size, setLeaf_depth, setData_depth, setLeaf_position,
      setData_position]
    rw [setLeaf_getBranch, setData_getBranch] at hbc
    exact ((wfb_iff root).1 hroot).2.2 b' c hbc

/-- Appending a payload to a leaf preserves well-formedness. -/
theorem wfb_setData {root : OctNode} (d : List ObjData) (hroot : wfb root = true) :
    wfb (root.setData d) = true := by
  rw [wfb_iff]
  refine ⟨?_, ?_, ?_⟩
  · rw [setData_size]; exact wfb_size_pos hroot
  · intro hl b
    rw [setData_isLeafNode] at hl
    rw [setData_getBranch]
    exact ((wfb_iff root).1 hroot).2.1 hl b
  · intro b' c hbc
    rw [setData_size, setData_depth, setData_position]
    rw [setData_getBranch] at hbc
    exact ((wfb_iff root).1 hroot).2.2 b' c hbc

/-- Insertion preserves well-formedness: a successful `__insertNode` call on
a well-formed (possibly empty) subtree with a positive size argument yields
a well-formed subtree; moreover an existing node keeps its center, size and
depth, and an empty slot is filled by exactly the freshly created leaf. -/
theorem insertNodeAux_wfb :
    ∀ (fuel : ℕ) (ln : Bool) (lim : ℕ) (br : Option OctNode) (size : ℚ)
      (parent : OctNode) (pos : Pt3) (ob : ObjData) (r : OctNode),
      insertNodeAux ln lim fuel br size parent pos ob = some r →
      0 < size →
      (∀ n, br = some n → wfb n = true) →
      wfb r = true ∧
      (∀ n, br = some n → r.position = n.position ∧ r.size = n.size ∧ r.depth = n.depth) ∧
      (br = none → r = OctNode.create (newCenterFor parent.position (size / 2)
        (findBranch parent pos)) size (parent.depth + 1) [ob]) := by
  intro fuel
  induction fuel with
  | zero =>
      intro ln lim br size parent pos ob r h _ _
      simp [insertNodeAux] at h
  | succ fuel ih =>
      intro ln lim br size parent pos ob r h hs hbr
      cases br with
      | none =>
          simp only [insertNodeAux] at h
          injection h with h
          subst h
          refine ⟨?_, ?_, ?_⟩
          · rw [wfb_iff]
            refine ⟨?_, fun _ b => create_getBranch _ _ _ _ b, ?_⟩
            · rw [create_size]; exact hs
            · intro b c hbc
              rw [create_getBranch] at hbc
              cases hbc
          · intro n hn
            cases hn
          · intro _
            rfl
      | some root =>
          have hroot : wfb root = true := hbr root rfl
          have hrs : 0 < root.size / 2 := by
            have := wfb_size_pos hroot
            positivity
          simp only [insertNodeAux] at h
          by_cases hcond : root.position ≠ pos ∧ root.isLeafNode = false
          · rw [if_pos hcond] at h
            rcases heq : insertNodeAux ln lim fuel (root.getBranch (findBranch root pos))
                (root.size / 2) root pos ob with _ | child
            · rw [heq] at h; cases h
            · rw [heq] at h
              injection h with h
              subst h
              obtain ⟨hwfc, hchdr, hccr⟩ := ih ln lim (root.getBranch (findBranch root pos))
                (root.size / 2) root pos ob child heq hrs
                (fun n hn => wfb_child_of_getBranch hroot hn)
              have hb8 : findBranch root pos < 8 := findBranch_lt_eight root pos
              have hrel : child.size = root.size / 2 ∧ child.depth = root.depth + 1 ∧
                  child.position = newCenterFor root.position (root.size / 4)
                    (findBranch root pos) := by
                rcases hgb : root.getBranch (findBranch root pos) with _ | old
                · have hcreq := hccr hgb
                  subst hcreq
                  rw [create_size, create_depth, create_position, half_half]
                  exact ⟨rfl, rfl, rfl⟩
                · obtain ⟨hp, hsz, hd⟩ := hchdr old hgb
                  obtain ⟨hosz, hod, hop, _⟩ := ((wfb_iff root).1 hroot).2.2 _ old hgb
                  rw [hp, hsz, hd]
                  exact ⟨hosz, hod, hop⟩
              refine ⟨wfb_setBranch_child hb8 hroot hcond.2 hrel.1 hrel.2.1 hrel.2.2 hwfc, ?_,
                fun hn => by cases hn⟩
              intro n hn
              injection hn with hn
              subst hn
              rw [setBranch_position, setBranch_size, setBranch_depth]
              exact ⟨rfl, rfl, rfl⟩
          · rw [if_neg hcond] at h
            by_cases hleaf : root.isLeafNode = true
            · rw [if_pos hleaf] at h
              by_cases hpol : (ln = true ∧ root.data.length < lim) ∨
                  (ln = false ∧ lim ≤ root.depth)
              · rw [if_pos hpol] at h
                injection h with h
                subst h
                refine ⟨wfb_setData _ hroot, ?_, fun hn => by cases hn⟩
                intro n hn
                injection hn with hn
                subst hn
                rw [setData_position, setData_size, setData_depth]
                exact ⟨rfl, rfl, rfl⟩
              · rw [if_neg hpol] at h
                have hP := foldl_inv
                  (fun acc ob2 =>
                    match acc with
                    | none => none
                    | some r2 =>
                        match insertNodeAux ln lim fuel (r2.getBranch (findBranch r2 (obPos ob2)))
                            (root.size / 2) r2 (obPos ob2) ob2 with
                        | none => none
                        | some child => some (r2.setBranch (findBranch r2 (obPos ob2)) (some child)))
                  (fun acc => ∀ rr, acc = some rr → wfb rr = true ∧
                    rr.position = root.position ∧ rr.size = root.size ∧
                    rr.depth = root.depth ∧ rr.isLeafNode = false)
                  (root.data ++ [ob]) (some ((root.setData []).setLeaf false))
                  ?base ?step
                case base =>
                  intro rr hrr
                  injection hrr with hrr
                  subst hrr
                  rw [setLeaf_position, setData_position, setLeaf_size, setData_size,
                    setLeaf_depth, setData_depth, setLeaf_isLeafNode]
                  exact ⟨wfb_subdivideShell hroot, rfl, rfl, rfl, rfl⟩
                case step =>
                  rintro (_ | x) a _ hx
                  · intro rr hrr; cases hrr
                  · obtain ⟨hwfx, hxp, hxs, hxd, hxl⟩ := hx x rfl
                    rcases heq : insertNodeAux ln lim fuel
                        (x.getBranch (findBranch x (obPos a))) (root.size / 2) x (obPos a) a
                      with _ | child
                    · intro rr hrr; simp only [heq] at hrr; cases hrr
                    · intro rr hrr
                      simp only [heq] at hrr
                      injection hrr with hrr
                      subst hrr
                      obtain ⟨hwfc, hchdr, hccr⟩ := ih ln lim
                        (x.getBranch (findBranch x (obPos a))) (root.size / 2) x (obPos a) a
                        child heq hrs (fun n hn => wfb_child_of_getBranch hwfx hn)
                      have hb8 : findBranch x (obPos a) < 8 := findBranch_lt_eight x (obPos a)
                      have hrel : child.size = x.size / 2 ∧ child.depth = x.depth + 1 ∧
                          child.position = newCenterFor x.position (x.size / 4)
                            (findBranch x (obPos a)) := by
                        rcases hgb : x.getBranch (findBranch x (obPos a)) with _ | old
                        · have hcreq := hccr hgb
                          subst hcreq
                          rw [create_size, create_depth, create_position, hxs, half_half]
                          exact ⟨rfl, rfl, rfl⟩
                        · obtain ⟨hp, hsz, hd⟩ := hchdr old hgb
                          obtain ⟨hosz, hod, hop, _⟩ := ((wfb_iff x).1 hwfx).2.2 _ old hgb
                          rw [hp, hsz, hd]
                          exact ⟨hosz, hod, hop⟩
                      have hxs2 : child.size = x.size / 2 := hrel.1
                      refine ⟨wfb_setBranch_child hb8 hwfx hxl hrel.1 hrel.2.1 hrel.2.2 hwfc,
                        ?_, ?_, ?_, ?_⟩
                      · rw [setBranch_position, hxp]
                      · rw [setBranch_size, hxs]
                      · rw [setBranch_depth, hxd]
                      · rw [setBranch_isLeafNode, hxl]
                obtain ⟨hwfr, hrp, hrs2, hrd, _⟩ := hP r h
                exact ⟨hwfr, fun n hn => by
                  injection hn with hn
                  subst hn
                  exact ⟨hrp, hrs2, hrd⟩, fun hn => by cases hn⟩
            · rw [if_neg hleaf] at h
              injection h with h
              subst h
              exact ⟨hroot, fun n hn => by injection hn with hn; subst hn; exact ⟨rfl, rfl, rfl⟩,
                fun hn => by cases hn⟩

theorem getBranch_lt {n : OctNode} {b : ℕ} {c : OctNode} (h : n.getBranch b = some c) :
    b < 8 := by
  by_contra hb
  have : n.getBranch b = none := by
    cases n
    rcases b with _ | _ | _ | _ | _ | _ | _ | _ | b <;> first | omega | rfl
  rw [this] at h
  cases h

/-- The eight-way center chain agrees with the documented bit rule: bit 2
chooses the x sign, bit 1 the y sign, bit 0 the z sign. -/
theorem newCenterFor_testBit (p : Pt3) (off : ℚ) {b : ℕ} (hb : b < 8) :
    (newCenterFor p off b).x = p.x + (if b.testBit 2 then off else -off) ∧
    (newCenterFor p off b).y = p.y + (if b.testBit 1 then off else -off) ∧
    (newCenterFor p off b).z = p.z + (if b.testBit 0 then off else -off) := by
  interval_cases b <;>
    simp [newCenterFor, Nat.testBit, sub_eq_add_neg]

/-- Every node of a well-formed tree is well-formed. -/
theorem wfb_allNodes : ∀ (n : OctNode), wfb n = true → ∀ m ∈ allNodes n, wfb m = true := by
  refine OctNode.strong_ind ?_
  intro n ihn hw m hm
  rw [mem_allNodes_iff] at hm
  rcases hm with rfl | ⟨b, ch, hbc, hmem⟩
  · exact hw
  · exact ihn ch (getBranch_sizeOf hbc) (wfb_child_of_getBranch hw hbc) m hmem

/-- A fresh root as built by `Octree.__init__` is well-formed whenever the
world size is positive. -/
theorem wfb_init (o : Pt3) (w : ℚ) (hw : 0 < w) (dat : List ObjData) :
    wfb (OctNode.create o w 0 dat) = true := by
  rw [wfb_iff]
  refine ⟨?_, fun _ b => create_getBranch _ _ _ _ b, ?_⟩
  · rw [create_size]; exact hw
  · intro b c hbc
    rw [create_getBranch] at hbc
    cases hbc

/-- A successful public insert preserves well-formedness and the root
header fields. -/
theorem insertNode_wfb {t : Octree} {fuel : ℕ} {pos : Pt3} {ob : Option ObjData} {r : OctNode}
    (h : t.insertNode fuel pos ob = .ok r) (hw : wfb t.root = true) :
    wfb r = true ∧ r.position = t.root.position ∧ r.size = t.root.size ∧
      r.depth = t.root.depth := by
  unfold Octree.insertNode at h
  by_cases h1 : tupLt pos t.root.lower = true
  · rw [if_pos h1] at h; cases h
  · rw [Bool.not_eq_true] at h1
    rw [h1] at h
    simp only [Bool.false_eq_true, if_false] at h
    by_cases h2 : tupLt t.root.upper pos = true
    · rw [if_pos h2] at h; cases h
    · rw [Bool.not_eq_true] at h2
      rw [h2] at h
      simp only [Bool.false_eq_true, if_false] at h
      rcases heq : insertNodeAux t.limit_nodes t.limit fuel (some t.root) t.root.size t.root pos
          (ob.getD (ObjData.raw pos)) with _ | r2
      · rw [heq] at h; cases h
      · rw [heq] at h
        injection h with h
        subst h
        obtain ⟨hwf, hdr, _⟩ := insertNodeAux_wfb fuel t.limit_nodes t.limit (some t.root)
          t.root.size t.root pos (ob.getD (ObjData.raw pos)) r2 heq (wfb_size_pos hw)
          (fun n hn => by injection hn with hn; subst hn; exact hw)
        exact ⟨hwf, hdr t.root rfl⟩

/-- A successful insert sequence preserves well-formedness of the root and
the recorded split policy. -/
theorem insertSeq_wfb {t t2 : Octree} {fuel : ℕ} {ops : List (Pt3 × Option ObjData)}
    (h : t.insertSeq fuel ops = some t2) (hw : wfb t.root = true) :
    wfb t2.root = true ∧ t2.limit_nodes = t.limit_nodes ∧ t2.limit = t.limit := by
  have hP := foldl_inv
    (fun acc op =>
      match acc with
      | none => none
      | some t3 =>
          match t3.insertNode fuel op.1 op.2 with
          | .outOfBounds => some t3
          | .fuelExhausted => none
          | .ok r => some { t3 with root := r })
    (fun acc => ∀ t3, acc = some t3 → wfb t3.root = true ∧
      t3.limit_nodes = t.limit_nodes ∧ t3.limit = t.limit)
    ops (some t) ?base ?step
  case base =>
    intro t3 ht3
    injection ht3 with ht3
    subst ht3
    exact ⟨hw, rfl, rfl⟩
  case step =>
    rintro (_ | x) a _ hx
    · intro t3 ht3; cases ht3
    · obtain ⟨hwx, hlnx, hlx⟩ := hx x rfl
      rcases heq : x.insertNode fuel a.1 a.2 with _ | _ | r
      · intro t3 ht3
        simp only [heq] at ht3
        injection ht3 with ht3
        subst ht3
        exact ⟨hwx, hlnx, hlx⟩
      · intro t3 ht3
        simp only [heq] at ht3
        cases ht3
      · intro t3 ht3
        simp only [heq] at ht3
        injection ht3 with ht3
        subst ht3
        exact ⟨(insertNode_wfb heq hwx).1, hlnx, hlx⟩
  exact hP t2 h

/-- C7: every child node ever created by insertion satisfies the geometric
invariants: half the parent size, depth one deeper, and center offset by a
quarter of the parent size on each axis with signs given by the branch
index bits (bit 2 for x, bit 1 for y, bit 0 for z). -/
theorem claimC7 : ∀ (w : ℚ) (o : Pt3) (mt : String) (mv fuel : ℕ)
    (ops : List (Pt3 × Option ObjData)) (t : Octree),
    0 < w →
    (octreeInit w o mt mv).insertSeq fuel ops = some t →
    ∀ par ∈ allNodes t.root, ∀ (b : ℕ) (c : OctNode), par.getBranch b = some c →
      c.size = par.size / 2 ∧ c.depth = par.depth + 1 ∧
      c.position.x = par.position.x + (if b.testBit 2 then par.size / 4 else -(par.size / 4)) ∧
      c.position.y = par.position.y + (if b.testBit 1 then par.size / 4 else -(par.size / 4)) ∧
      c.position.z = par.position.z + (if b.testBit 0 then par.size / 4 else -(par.size / 4)) := by
  intro w o mt mv fuel ops t hw hseq par hpar b c hbc
  have hwt : wfb t.root = true :=
    (insertSeq_wfb hseq (by
      show wfb (octreeInit w o mt mv).root = true
      exact wfb_init o w hw [])).1
  have hwpar : wfb par = true := wfb_allNodes t.root hwt par hpar
  obtain ⟨hsz, hd, hp, _⟩ := ((wfb_iff par).1 hwpar).2.2 b c hbc
  obtain ⟨hx, hy, hz⟩ := newCenterFor_testBit par.position (par.size / 4) (getBranch_lt hbc)
  rw [hp]
  exact ⟨hsz, hd, hx, hy, hz⟩

/-- Witness for C7 at a concrete run: world size 100, origin (0,0,0),
count limit 1, inserting (10,10,10) then (-10,-10,-10). -/
theorem claimC7_witness :
    (0 : ℚ) < 100 ∧
    ((octreeInit 100 ⟨0, 0, 0⟩ "nodes" 1).insertSeq 10
        [(⟨10, 10, 10⟩, some obA), (⟨-10, -10, -10⟩, some obB)] = some treeSplit) ∧
    (∀ par ∈ allNodes treeSplit.root, ∀ (b : ℕ) (c : OctNode), par.getBranch b = some c →
      c.size = par.size / 2 ∧ c.depth = par.depth + 1 ∧
      c.position.x = par.position.x + (if b.testBit 2 then par.size / 4 else -(par.size / 4)) ∧
      c.position.y = par.position.y + (if b.testBit 1 then par.size / 4 else -(par.size / 4)) ∧
      c.position.z = par.position.z + (if b.testBit 0 then par.size / 4 else -(par.size / 4))) :=
  ⟨by decide, by decide,
    claimC7 100 ⟨0, 0, 0⟩ "nodes" 1 10
      [(⟨10, 10, 10⟩, some obA), (⟨-10, -10, -10⟩, some obB)] treeSplit
      (by decide) (by decide)⟩

theorem leafCount_child_of_getBranch {lim : ℕ} {n c : OctNode} {b : ℕ}
    (h : leafCountOK lim n = true) (hbc : n.getBranch b = some c) :
    leafCountOK lim c = true :=
  ((leafCountOK_iff lim n).1 h).2 b c hbc

/-- In count-limited mode, a successful `__insertNode` call keeps every
leaf of the resulting subtree within the payload limit. -/
theorem insertNodeAux_leafCount :
    ∀ (fuel lim : ℕ) (br : Option OctNode) (size : ℚ)
      (parent : OctNode) (pos : Pt3) (ob : ObjData) (r : OctNode),
      insertNodeAux true lim fuel br size parent pos ob = some r →
      1 ≤ lim →
      (∀ n, br = some n → leafCountOK lim n = true) →
      leafCountOK lim r = true := by
  intro fuel
  induction fuel with
  | zero =>
      intro lim br size parent pos ob r h _ _
      simp [insertNodeAux] at h
  | succ fuel ih =>
      intro lim br size parent pos ob r h hlim hbr
      cases br with
      | none =>
          simp only [insertNodeAux] at h
          injection h with h
          subst h
          rw [leafCountOK_iff]
          refine ⟨?_, ?_⟩
          · intro _
            rw [create_data]
            simpa using hlim
          · intro b c hbc
            rw [create_getBranch] at hbc
            cases hbc
      | some root =>
          have hroot : leafCountOK lim root = true := hbr root rfl
          simp only [insertNodeAux] at h
          by_cases hcond : root.position ≠ pos ∧ root.isLeafNode = false
          · rw [if_pos hcond] at h
            rcases heq : insertNodeAux true lim fuel (root.getBranch (findBranch root pos))
                (root.size / 2) root pos ob with _ | child
            · rw [heq] at h; cases h
            · rw [heq] at h
              injection h with h
              subst h
              have hwfc := ih lim (root.getBranch (findBranch root pos))
                (root.size / 2) root pos ob child heq hlim
                (fun n hn => leafCount_child_of_getBranch hroot hn)
              rw [leafCountOK_iff]
              refine ⟨?_, ?_⟩
              · intro hl
                rw [setBranch_isLeafNode, hcond.2] at hl
                cases hl
              · intro b c hbc
                by_cases hbb : b = findBranch root pos
                · subst hbb
                  rw [getBranch_setBranch_self _ _ _ (findBranch_lt_eight root pos)] at hbc
                  injection hbc with hbc
                  subst hbc
                  exact hwfc
                · rw [getBranch_setBranch_ne _ _ _ _ hbb] at hbc
                  exact leafCount_child_of_getBranch hroot hbc
          · rw [if_neg hcond] at h
            by_cases hleaf : root.isLeafNode = true
            · rw [if_pos hleaf] at h
              split at h
              · rename_i hpol
                injection h with h
                subst h
                have hlen : root.data.length < lim := by
                  rcases hpol with ⟨_, hl⟩ | ⟨hfalse, _⟩
                  · exact hl
                  · cases hfalse
                rw [leafCountOK_iff]
                refine ⟨?_, ?_⟩
                · intro _
                  rw [setData_data, List.length_append, List.length_singleton]
                  omega
                · intro b c hbc
                  rw [setData_getBranch] at hbc
                  exact leafCount_child_of_getBranch hroot hbc
              · rename_i hpol
                have hP := foldl_inv
                  (fun acc ob2 =>
                    match acc with
                    | none => none
                    | some r2 =>
                        match insertNodeAux true lim fuel
                            (r2.getBranch (findBranch r2 (obPos ob2)))
                            (root.size / 2) r2 (obPos ob2) ob2 with
                        | none => none
                        | some child => some (r2.setBranch (findBranch r2 (obPos ob2)) (some child)))
                  (fun acc => ∀ rr, acc = some rr → leafCountOK lim rr = true ∧
                    rr.isLeafNode = false)
                  (root.data ++ [ob]) (some ((root.setData []).setLeaf false))
                  ?base ?step
                case base =>
                  intro rr hrr
                  injection hrr with hrr
                  subst hrr
                  refine ⟨?_, setLeaf_isLeafNode _ _⟩
                  rw [leafCountOK_iff]
                  refine ⟨?_, ?_⟩
                  · intro hl
                    rw [setLeaf_isLeafNode] at hl
                    cases hl
                  · intro b c hbc
                    rw [setLeaf_getBranch, setData_getBranch] at hbc
                    exact leafCount_child_of_getBranch hroot hbc
                case step =>
                  rintro (_ | x) a _ hx
                  · intro rr hrr; cases hrr
                  · obtain ⟨hcx, hxl⟩ := hx x rfl
                    rcases heq : insertNodeAux true lim fuel
                        (x.getBranch (findBranch x (obPos a))) (root.size / 2) x (obPos a) a
                      with _ | child
                    · intro rr hrr; simp only [heq] at hrr; cases hrr
                    · intro rr hrr
                      simp only [heq] at hrr
                      injection hrr with hrr
                      subst hrr
                      have hwfc := ih lim (x.getBranch (findBranch x (obPos a)))
                        (root.size / 2) x (obPos a) a child heq hlim
                        (fun n hn => leafCount_child_of_getBranch hcx hn)
                      refine ⟨?_, by rw [setBranch_isLeafNode, hxl]⟩
                      rw [leafCountOK_iff]
                      refine ⟨?_, ?_⟩
                      · intro hl
                        rw [setBranch_isLeafNode, hxl] at hl
                        cases hl
                      · intro b c hbc
                        by_cases hbb : b = findBranch x (obPos a)
                        · subst hbb
                          rw [getBranch_setBranch_self _ _ _
                            (findBranch_lt_eight x (obPos a))] at hbc
                          injection hbc with hbc
                          subst hbc
                          exact hwfc
                        · rw [getBranch_setBranch_ne _ _ _ _ hbb] at hbc
                          exact leafCount_child_of_getBranch hcx hbc
                exact (hP r h).1
            · rw [if_neg hleaf] at h
              injection h with h
              subst h
              exact hroot

/-- A fresh root's (possibly empty) payload list respects any limit it fits
in. -/
theorem leafCount_init (o : Pt3) (w : ℚ) (lim : ℕ) (dat : List ObjData)
    (hdat : dat.length ≤ lim) : leafCountOK lim (OctNode.create o w 0 dat) = true := by
  rw [leafCountOK_iff]
  refine ⟨fun _ => by rw [create_data]; exact hdat, ?_⟩
  intro b c hbc
  rw [create_getBranch] at hbc
  cases hbc

/-- C8: in count-limited mode, after any terminating sequence of public
inserts starting from a fresh tree with positive limit, every leaf holds at
most `limit` payloads.  (The "coincident positions" exception of the claim
never materializes in a terminating run: with coincident overflow the
source recurses forever, so there is no resulting tree at all.) -/
theorem claimC8 : ∀ (w : ℚ) (o : Pt3) (mv fuel : ℕ)
    (ops : List (Pt3 × Option ObjData)) (t : Octree),
    1 ≤ mv →
    (octreeInit w o "nodes" mv).insertSeq fuel ops = some t →
    ∀ n ∈ allNodes t.root, n.isLeafNode = true → n.data.length ≤ t.limit := by
  intro w o mv fuel ops t hmv hseq
  have hP := foldl_inv
    (fun acc op =>
      match acc with
      | none => none
      | some t3 =>
          match t3.insertNode fuel op.1 op.2 with
          | .outOfBounds => some t3
          | .fuelExhausted => none
          | .ok r => some { t3 with root := r })
    (fun acc => ∀ t3, acc = some t3 → leafCountOK mv t3.root = true ∧
      t3.limit_nodes = true ∧ t3.limit = mv)
    ops (some (octreeInit w o "nodes" mv)) ?base ?step
  case base =>
    intro t3 ht3
    injection ht3 with ht3
    subst ht3
    refine ⟨leafCount_init o w mv [] (by simp), rfl, rfl⟩
  case step =>
    rintro (_ | x) a _ hx
    · intro t3 ht3; cases ht3
    · obtain ⟨hcx, hlnx, hlx⟩ := hx x rfl
      rcases heq : x.insertNode fuel a.1 a.2 with _ | _ | r
      · intro t3 ht3
        simp only [heq] at ht3
        injection ht3 with ht3
        subst ht3
        exact ⟨hcx, hlnx, hlx⟩
      · intro t3 ht3
        simp only [heq] at ht3
        cases ht3
      · intro t3 ht3
        simp only [heq] at ht3
        injection ht3 with ht3
        subst ht3
        refine ⟨?_, hlnx, hlx⟩
        unfold Octree.insertNode at heq
        by_cases h1 : tupLt a.1 x.root.lower = true
        · rw [if_pos h1] at heq; cases heq
        · rw [Bool.not_eq_true] at h1
          rw [h1] at heq
          simp only [Bool.false_eq_true, if_false] at heq
          by_cases h2 : tupLt x.root.upper a.1 = true
          · rw [if_pos h2] at heq; cases heq
          · rw [Bool.not_eq_true] at h2
            rw [h2] at heq
            simp only [Bool.false_eq_true, if_false] at heq
            rcases haux : insertNodeAux x.limit_nodes x.limit fuel (some x.root) x.root.size
                x.root a.1 (a.2.getD (ObjData.raw a.1)) with _ | r2
            · rw [haux] at heq; cases heq
            · rw [haux] at heq
              injection heq with heq
              subst heq
              rw [hlnx, hlx] at haux
              exact insertNodeAux_leafCount fuel mv (some x.root) x.root.size x.root a.1
                (a.2.getD (ObjData.raw a.1)) r2 haux hmv
                (fun n hn => by injection hn with hn; subst hn; exact hcx)
  intro n hn hleaf
  obtain ⟨hct, _, hlt⟩ := hP t hseq
  rw [hlt]
  have : ∀ (m : OctNode), leafCountOK mv m = true → ∀ n2 ∈ allNodes m,
      leafCountOK mv n2 = true := by
    refine OctNode.strong_ind ?_
    intro m ihm hc n2 hn2
    rw [mem_allNodes_iff] at hn2
    rcases hn2 with rfl | ⟨b, ch, hbc, hmem⟩
    · exact hc
    · exact ihm ch (getBranch_sizeOf hbc) (leafCount_child_of_getBranch hc hbc) n2 hmem
  exact ((leafCountOK_iff mv n).1 (this t.root hct n hn)).1 hleaf

/-- Witness for C8 at a concrete run: world size 100, origin (0,0,0),
count limit 1, inserting (10,10,10) then (-10,-10,-10). -/
theorem claimC8_witness :
    1 ≤ 1 ∧
    ((octreeInit 100 ⟨0, 0, 0⟩ "nodes" 1).insertSeq 10
        [(⟨10, 10, 10⟩, some obA), (⟨-10, -10, -10⟩, some obB)] = some treeSplit) ∧
    (∀ n ∈ allNodes treeSplit.root, n.isLeafNode = true →
      n.data.length ≤ treeSplit.limit) :=
  ⟨by decide, by decide,
    claimC8 100 ⟨0, 0, 0⟩ 1 10
      [(⟨10, 10, 10⟩, some obA), (⟨-10, -10, -10⟩, some obB)] treeSplit
      (by decide) (by decide)⟩

/-- Witness for the amended C10 at world size -1, origin (0,0,0), limit 0. -/
theorem claimC10_witness :
    octreeInit (-1) ⟨0, 0, 0⟩ "nodes" 0 =
        ⟨OctNode.create ⟨0, 0, 0⟩ (-1) 0 [], -1, "nodes" == "nodes", 0⟩ ∧
    (octreeInit 0 ⟨0, 0, 0⟩ "nodes" 0).insertNode 2 ⟨0, 0, 0⟩ none ≠ .outOfBounds :=
  claimC10 (-1) ⟨0, 0, 0⟩ "nodes" 0

/-- Every node of a well-formed tree lies inside its root's cube, with
slack: each coordinate is within `size/2 - (own size)/2` of the root
center. -/
theorem allNodes_inside : ∀ (a : OctNode), wfb a = true → ∀ c ∈ allNodes a,
    a.position.x - (a.size / 2 - c.size / 2) ≤ c.position.x ∧
    c.position.x ≤ a.position.x + (a.size / 2 - c.size / 2) ∧
    a.position.y - (a.size / 2 - c.size / 2) ≤ c.position.y ∧
    c.position.y ≤ a.position.y + (a.size / 2 - c.size / 2) ∧
    a.position.z - (a.size / 2 - c.size / 2) ≤ c.position.z ∧
    c.position.z ≤ a.position.z + (a.size / 2 - c.size / 2) := by
  refine OctNode.strong_ind ?_
  intro a iha hw c hc
  rw [mem_allNodes_iff] at hc
  rcases hc with rfl | ⟨b, ch, hbc, hmem⟩
  · refine ⟨?_, ?_, ?_, ?_, ?_, ?_⟩ <;> simp
  · obtain ⟨hsz, hd, hp, hwch⟩ := ((wfb_iff a).1 hw).2.2 b ch hbc
    have hb8 := getBranch_lt hbc
    obtain ⟨hx, hy, hz⟩ := newCenterFor_testBit a.position (a.size / 4) hb8
    rw [← hp] at hx hy hz
    obtain ⟨ihx1, ihx2, ihy1, ihy2, ihz1, ihz2⟩ := iha ch (getBranch_sizeOf hbc) hwch c hmem
    rw [hsz, half_half] at ihx1 ihx2 ihy1 ihy2 ihz1 ihz2
    have hspos := wfb_size_pos hw
    refine ⟨?_, ?_, ?_, ?_, ?_, ?_⟩
    · by_cases hbit : b.testBit 2 = true
      · rw [if_pos hbit] at hx; linarith
      · rw [if_neg hbit] at hx; linarith
    · by_cases hbit : b.testBit 2 = true
      · rw [if_pos hbit] at hx; linarith
      · rw [if_neg hbit] at hx; linarith
    · by_cases hbit : b.testBit 1 = true
      · rw [if_pos hbit] at hy; linarith
      · rw [if_neg hbit] at hy; linarith
    · by_cases hbit : b.testBit 1 = true
      · rw [if_pos hbit] at hy; linarith
      · rw [if_neg hbit] at hy; linarith
    · by_cases hbit : b.testBit 0 = true
      · rw [if_pos hbit] at hz; linarith
      · rw [if_neg hbit] at hz; linarith
    · by_cases hbit : b.testBit 0 = true
      · rw [if_pos hbit] at hz; linarith
      · rw [if_neg hbit] at hz; linarith

/-- Every node of the subtree hanging off branch `b` lies strictly on the
`b`-side of the parent's center, with margin half its own size. -/
theorem subtree_side {a ch c : OctNode} {b : ℕ} (hw : wfb a = true)
    (hbc : a.getBranch b = some ch) (hmem : c ∈ allNodes ch) :
    (if b.testBit 2 then a.position.x + c.size / 2 ≤ c.position.x
      else c.position.x ≤ a.position.x - c.size / 2) ∧
    (if b.testBit 1 then a.position.y + c.size / 2 ≤ c.position.y
      else c.position.y ≤ a.position.y - c.size / 2) ∧
    (if b.testBit 0 then a.position.z + c.size / 2 ≤ c.position.z
      else c.position.z ≤ a.position.z - c.size / 2) := by
  obtain ⟨hsz, hd, hp, hwch⟩ := ((wfb_iff a).1 hw).2.2 b ch hbc
  have hb8 := getBranch_lt hbc
  obtain ⟨hx, hy, hz⟩ := newCenterFor_testBit a.position (a.size / 4) hb8
  rw [← hp] at hx hy hz
  obtain ⟨ihx1, ihx2, ihy1, ihy2, ihz1, ihz2⟩ := allNodes_inside ch hwch c hmem
  rw [hsz, half_half] at ihx1 ihx2 ihy1 ihy2 ihz1 ihz2
  refine ⟨?_, ?_, ?_⟩
  · by_cases hbit : b.testBit 2 = true
    · rw [if_pos hbit] at hx ⊢; linarith
    · rw [if_neg hbit] at hx ⊢; linarith
  · by_cases hbit : b.testBit 1 = true
    · rw [if_pos hbit] at hy ⊢; linarith
    · rw [if_neg hbit] at hy ⊢; linarith
  · by_cases hbit : b.testBit 0 = true
    · rw [if_pos hbit] at hz ⊢; linarith
    · rw [if_neg hbit] at hz ⊢; linarith

/-- `__findBranch` computed from per-axis comparisons matching the bits of
an index below 8 yields exactly that index. -/
theorem findBranch_eq_of_bits {a : OctNode} {q : Pt3} {b : ℕ} (hb : b < 8)
    (hx : a.position.x ≤ q.x ↔ b.testBit 2 = true)
    (hy : a.position.y ≤ q.y ↔ b.testBit 1 = true)
    (hz : a.position.z ≤ q.z ↔ b.testBit 0 = true) :
    findBranch a q = b := by
  interval_cases b <;> simp_all [findBranch, Nat.testBit] <;>
    split_ifs <;> first | rfl | linarith

/-- Inserting at the exact center of a non-leaf node of a well-formed tree
returns the tree unchanged: the descent reaches that node (or an ancestor
with the same center, which cannot exist in a well-formed tree), the
`root.position != position` guard fails there, the node is not a leaf, so
nothing at all happens and every frame on the way up rewrites each branch
slot with the unchanged child. -/
theorem insert_at_internal :
    ∀ (root : OctNode), wfb root = true →
      ∀ n ∈ allNodes root, n.isLeafNode = false →
      ∀ (ln : Bool) (lim fuel : ℕ) (size : ℚ) (parent : OctNode) (ob : ObjData),
      height root ≤ fuel →
      insertNodeAux ln lim fuel (some root) size parent n.position ob = some root := by
  refine OctNode.strong_ind ?_
  intro root ihroot hw n hn hnl ln lim fuel size parent ob hfuel
  have hfp : 0 < height root := height_pos root
  obtain ⟨f, rfl⟩ : ∃ f, fuel = f + 1 := ⟨fuel - 1, by omega⟩
  rw [mem_allNodes_iff] at hn
  rcases hn with rfl | ⟨b, ch, hbc, hmem⟩
  · simp only [insertNodeAux]
    rw [if_neg (fun hcond => hcond.1 rfl)]
    rw [if_neg (by rw [hnl]; simp)]
  · have hb8 := getBranch_lt hbc
    have hrl : root.isLeafNode = false := by
      by_contra hcon
      rw [Bool.not_eq_false] at hcon
      have hnone := ((wfb_iff root).1 hw).2.1 hcon b
      rw [hnone] at hbc
      cases hbc
    have hwn : wfb n = true :=
      wfb_allNodes root hw n ((mem_allNodes_iff n root).2 (Or.inr ⟨b, ch, hbc, hmem⟩))
    have hnpos : 0 < n.size := wfb_size_pos hwn
    obtain ⟨hsx, hsy, hsz⟩ := subtree_side hw hbc hmem
    have hx : root.position.x ≤ n.position.x ↔ b.testBit 2 = true := by
      by_cases hbit : b.testBit 2 = true
      · rw [if_pos hbit] at hsx
        exact ⟨fun _ => hbit, fun _ => by linarith⟩
      · rw [if_neg hbit] at hsx
        constructor
        · intro hle
          exfalso
          linarith
        · intro hbt
          exact absurd hbt hbit
    have hy : root.position.y ≤ n.position.y ↔ b.testBit 1 = true := by
      by_cases hbit : b.testBit 1 = true
      · rw [if_pos hbit] at hsy
        exact ⟨fun _ => hbit, fun _ => by linarith⟩
      · rw [if_neg hbit] at hsy
        constructor
        · intro hle
          exfalso
          linarith
        · intro hbt
          exact absurd hbt hbit
    have hz : root.position.z ≤ n.position.z ↔ b.testBit 0 = true := by
      by_cases hbit : b.testBit 0 = true
      · rw [if_pos hbit] at hsz
        exact ⟨fun _ => hbit, fun _ => by linarith⟩
      · rw [if_neg hbit] at hsz
        constructor
        · intro hle
          exfalso
          linarith
        · intro hbt
          exact absurd hbt hbit
    have hfb : findBranch root n.position = b := findBranch_eq_of_bits hb8 hx hy hz
    have hne : root.position ≠ n.position := by
      intro heq
      have hxx : root.position.x = n.position.x := by rw [heq]
      by_cases hbit : b.testBit 2 = true
      · rw [if_pos hbit] at hsx; linarith
      · rw [if_neg hbit] at hsx; linarith
    have hih := ihroot ch (getBranch_sizeOf hbc) (wfb_child_of_getBranch hw hbc) n hmem hnl
      ln lim f (root.size / 2) root ob (by have := getBranch_height hbc; omega)
    simp only [insertNodeAux]
    rw [if_pos ⟨hne, hrl⟩]
    simp only [hfb, hbc, hih, setBranch_eq_self root b (some ch) hbc]

theorem tupLt_eq_false_of_gt {a b : Pt3} (h : b.x < a.x) : tupLt a b = false := by
  have h1 : ¬ (a.x < b.x) := not_lt.2 h.le
  have h2 : ¬ (a.x = b.x) := fun he => absurd h (by rw [he]; exact lt_irrefl _)
  simp [tupLt, h1, h2]

/-- C4: in any well-formed tree containing a non-leaf node `n`, a public
insert at exactly `n.position` (with any payload, and any fuel covering the
tree height) returns a node — reporting success — while leaving the tree
completely unchanged: the result is the old root itself, so no payload is
stored anywhere and no node is created. -/
theorem claimC4 : ∀ (t : Octree) (n : OctNode) (ob : Option ObjData) (fuel : ℕ),
    wfb t.root = true → n ∈ allNodes t.root → n.isLeafNode = false →
    height t.root ≤ fuel →
    t.insertNode fuel n.position ob = .ok t.root := by
  intro t n ob fuel hw hmem hnl hfuel
  obtain ⟨hx1, hx2, hy1, hy2, hz1, hz2⟩ := allNodes_inside t.root hw n hmem
  have hnpos : 0 < n.size := wfb_size_pos (wfb_allNodes t.root hw n hmem)
  have hlow : tupLt n.position t.root.lower = false := by
    refine tupLt_eq_false_of_gt ?_
    show t.root.position.x - t.root.size / 2 < n.position.x
    linarith
  have hup : tupLt t.root.upper n.position = false := by
    refine tupLt_eq_false_of_gt ?_
    show n.position.x < t.root.position.x + t.root.size / 2
    linarith
  unfold Octree.insertNode
  rw [hlow, hup]
  simp only [Bool.false_eq_true, if_false]
  rw [insert_at_internal t.root hw n hmem hnl t.limit_nodes t.limit fuel t.root.size t.root
    (ob.getD (ObjData.raw n.position)) hfuel]

/-- Witness for C4: the subdivided two-leaf tree, with `n` the (non-leaf)
root itself, fuel 2 and payload `obC`. -/
theorem claimC4_witness :
    wfb treeSplit.root = true ∧ treeSplit.root.isLeafNode = false ∧
    height treeSplit.root ≤ 2 ∧
    treeSplit.insertNode 2 treeSplit.root.position (some obC) = .ok treeSplit.root :=
  ⟨by decide, by decide, by decide,
    claimC4 treeSplit treeSplit.root (some obC) 2 (by decide) (self_mem_allNodes _)
      (by decide) (by decide)⟩

theorem findBranch_congr {a b : OctNode} (h : a.position = b.position) (q : Pt3) :
    findBranch a q = findBranch b q := by
  simp [findBranch, h]

theorem create_setData (p : Pt3) (s : ℚ) (d : ℕ) (dat d2 : List ObjData) :
    (OctNode.create p s d dat).setData d2 = OctNode.create p s d d2 := rfl

theorem foldl_none_absorb {α β : Type} (f : Option β → α → Option β)
    (h0 : ∀ a, f none a = none) : ∀ l : List α, l.foldl f none = none := by
  intro l
  induction l with
  | nil => rfl
  | cons a r ih => rw [List.foldl_cons, h0]; exact ih

/-- One recursion step on an empty slot: a fresh leaf with the single
object is created. -/
theorem insert_into_none (ln : Bool) (lim g : ℕ) (sArg : ℚ) (parent : OctNode)
    (p : Pt3) (o : ObjData) :
    insertNodeAux ln lim (g + 1) none sArg parent p o =
      some (OctNode.create (newCenterFor parent.position (sArg / 2) (findBranch parent p))
        sArg (parent.depth + 1) [o]) := by
  simp [insertNodeAux]

/-- One recursion step on a leaf that is still under the count limit: the
object is appended to the leaf's data. -/
theorem insert_into_leaf_append (lim g : ℕ) (leafpos : Pt3) (s2 sArg : ℚ) (d2 : ℕ)
    (dat : List ObjData) (parent : OctNode) (p : Pt3) (o : ObjData)
    (hlt : dat.length < lim) :
    insertNodeAux true lim (g + 1) (some (OctNode.create leafpos s2 d2 dat)) sArg parent p o =
      some (OctNode.create leafpos s2 d2 (dat ++ [o])) := by
  simp only [insertNodeAux]
  split
  · rename_i hc
    exfalso
    obtain ⟨-, hfl⟩ := hc
    rw [create_isLeafNode] at hfl
    cases hfl
  · split
    · split
      · rfl
      · rename_i hpol
        exact absurd (Or.inl ⟨by trivial, by rw [create_data]; exact hlt⟩) hpol
    · rename_i hnl
      exact absurd (create_isLeafNode _ _ _ _) hnl

/-- The subdivision loop over coincident objects: all objects route to the
same branch, the slot leaf fills up to the limit, and the object that would
exceed the limit re-subdivides; if the objects outnumber the limit the loop
can therefore never finish (given that overfull coincident leaf inserts at
the next depth never finish). -/
theorem coincident_fold :
    ∀ (obs : List ObjData) (g lim : ℕ) (p : Pt3) (newSize : ℚ) (racc : OctNode)
      (cur : List ObjData),
      1 ≤ lim →
      (∀ o ∈ obs, obPos o = p) →
      (∀ o ∈ cur, obPos o = p) →
      (∀ (root2 parent2 : OctNode) (size2 : ℚ) (ob2 : ObjData),
        root2.isLeafNode = true → (∀ b : ℕ, root2.getBranch b = none) →
        (∀ o ∈ root2.data, obPos o = p) → obPos ob2 = p → lim ≤ root2.data.length →
        insertNodeAux true lim (g + 1) (some root2) size2 parent2 p ob2 = none) →
      ((cur = [] ∧ racc.getBranch (findBranch racc p) = none) ∨
        (∃ (cpos : Pt3) (cdep : ℕ), racc.getBranch (findBranch racc p) =
          some (OctNode.create cpos newSize cdep cur))) →
      lim + 1 ≤ cur.length + obs.length →
      cur.length ≤ lim →
      List.foldl
        (fun acc ob2 =>
          match acc with
          | none => none
          | some r =>
              match insertNodeAux true lim (g + 1) (r.getBranch (findBranch r (obPos ob2)))
                  newSize r (obPos ob2) ob2 with
              | none => none
              | some child => some (r.setBranch (findBranch r (obPos ob2)) (some child)))
        (some racc) obs = none := by
  intro obs
  induction obs with
  | nil =>
      intro g lim p newSize racc cur hlim hobs hcur hK hslot hcount hcap
      exfalso
      simp only [List.length_nil] at hcount
      omega
  | cons o rest ih =>
      intro g lim p newSize racc cur hlim hobs hcur hK hslot hcount hcap
      have hpo : obPos o = p := hobs o (List.mem_cons_self o rest)
      have hrest : ∀ o2 ∈ rest, obPos o2 = p :=
        fun o2 ho2 => hobs o2 (List.mem_cons_of_mem o ho2)
      rw [List.foldl_cons]
      have hb8 : findBranch racc p < 8 := findBranch_lt_eight racc p
      rcases hslot with ⟨rfl, hnone⟩ | ⟨cpos, cdep, hsome⟩
      · simp only [hpo, hnone, insert_into_none]
        refine ih g lim p newSize _ [o] hlim hrest ?_ hK ?_ ?_ ?_
        · intro o2 ho2
          rw [List.mem_singleton] at ho2
          subst ho2
          exact hpo
        · refine Or.inr ⟨newCenterFor racc.position (newSize / 2) (findBranch racc p),
            racc.depth + 1, ?_⟩
          have hposeq : (racc.setBranch (findBranch racc p)
              (some (OctNode.create (newCenterFor racc.position (newSize / 2)
                (findBranch racc p)) newSize (racc.depth + 1) [o]))).position = racc.position :=
            setBranch_position _ _ _
          rw [findBranch_congr hposeq p, getBranch_setBranch_self _ _ _ hb8]
        · simp only [List.length_cons, List.length_nil, List.length_singleton] at hcount ⊢
          omega
        · simpa using hlim
      · rcases Nat.lt_or_ge cur.length lim with hlt | hge
        · simp only [hpo, hsome,
            insert_into_leaf_append lim g cpos newSize newSize cdep cur racc p o hlt]
          refine ih g lim p newSize _ (cur ++ [o]) hlim hrest ?_ hK ?_ ?_ ?_
          · intro o2 ho2
            rw [List.mem_append, List.mem_singleton] at ho2
            rcases ho2 with ho2 | rfl
            · exact hcur o2 ho2
            · exact hpo
          · refine Or.inr ⟨cpos, cdep, ?_⟩
            have hposeq : (racc.setBranch (findBranch racc p)
                (some (OctNode.create cpos newSize cdep (cur ++ [o])))).position =
                racc.position := setBranch_position _ _ _
            rw [findBranch_congr hposeq p, getBranch_setBranch_self _ _ _ hb8]
          · simp only [List.length_cons, List.length_append, List.length_singleton]
              at hcount ⊢
            omega
          · simp only [List.length_append, List.length_singleton]
            omega
        · have hnone2 : insertNodeAux true lim (g + 1)
              (some (OctNode.create cpos newSize cdep cur)) newSize racc p o = none := by
            refine hK (OctNode.create cpos newSize cdep cur) racc newSize o
              (create_isLeafNode _ _ _ _) (fun b => create_getBranch _ _ _ _ b) ?_ hpo ?_
            · intro o2 ho2
              rw [create_data] at ho2
              exact hcur o2 ho2
            · rw [create_data]
              omega
          simp only [hpo, hsome, hnone2]
          exact foldl_none_absorb _ (fun a => rfl) rest

/-- In count-limited mode, inserting at position `p` into a leaf that
already holds at least `limit` payloads all positioned at `p` never
terminates, for any amount of fuel: the leaf subdivides, all payloads chase
each other into the same octant, and the situation repeats one level
deeper. -/
theorem coincident_insert_none :
    ∀ (fuel lim : ℕ) (root parent : OctNode) (size : ℚ) (p : Pt3) (ob : ObjData),
      1 ≤ lim →
      root.isLeafNode = true →
      (∀ b : ℕ, root.getBranch b = none) →
      (∀ o ∈ root.data, obPos o = p) →
      obPos ob = p →
      lim ≤ root.data.length →
      insertNodeAux true lim fuel (some root) size parent p ob = none := by
  intro fuel
  induction fuel with
  | zero =>
      intro lim root parent size p ob hlim hleaf hbr hdata hob hlen
      simp [insertNodeAux]
  | succ f ihf =>
      intro lim root parent size p ob hlim hleaf hbr hdata hob hlen
      simp only [insertNodeAux]
      have hc1 : ¬ (root.position ≠ p ∧ root.isLeafNode = false) := by
        rintro ⟨-, hfl⟩
        rw [hleaf] at hfl
        cases hfl
      have hc2 : ¬ (True ∧ root.data.length < lim ∨ true = false ∧ lim ≤ root.depth) := by
        rintro (⟨-, hlt⟩ | ⟨hff, -⟩)
        · omega
        · cases hff
      rw [if_neg hc1, if_pos hleaf, if_neg hc2]
      have hallp : ∀ o ∈ root.data ++ [ob], obPos o = p := by
        intro o ho
        rw [List.mem_append, List.mem_singleton] at ho
        rcases ho with ho | rfl
        · exact hdata o ho
        · exact hob
      cases f with
      | zero =>
          rcases hsplit : root.data ++ [ob] with _ | ⟨o1, rest⟩
          · exfalso
            have hl0 : (root.data ++ [ob]).length = 0 := by rw [hsplit]; rfl
            rw [List.length_append, List.length_singleton] at hl0
            omega
          · rw [List.foldl_cons]
            have h0 : insertNodeAux true lim 0
                (((root.setData []).setLeaf false).getBranch
                  (findBranch ((root.setData []).setLeaf false) (obPos o1)))
                (root.size / 2) ((root.setData []).setLeaf false) (obPos o1) o1 =
                none := by simp [insertNodeAux]
            simp only [h0]
            exact foldl_none_absorb _ (fun a => rfl) rest
      | succ g =>
          refine coincident_fold (root.data ++ [ob]) g lim p (root.size / 2)
            ((root.setData []).setLeaf false) [] hlim hallp (by intro o ho; cases ho)
            (fun root2 parent2 size2 ob2 h1 h2 h3 h4 h5 =>
              ihf lim root2 parent2 size2 p ob2 hlim h1 h2 h3 h4 h5) ?_ ?_ ?_
          · refine Or.inl ⟨rfl, ?_⟩
            rw [setLeaf_getBranch, setData_getBranch]
            exact hbr _
          · simp only [List.length_nil, List.length_append, List.length_singleton]
            omega
          · simp

/-- C5: with world size 100, origin (0,0,0) and count limit 10, the first
ten coincident inserts at (5,5,5) leave a single root leaf with ten
payloads, but the eleventh insert at (5,5,5) never terminates: for every
fuel bound the recursion is still running (the source would recurse until
the interpreter aborts), so no tree with one 11-payload leaf is ever
produced. -/
theorem claimC5 :
    treeCfg10.insertSeq 3 opsTenAt5 = some treeTenAt5 ∧
    treeTenAt5.root.isLeafNode = true ∧
    treeTenAt5.root.data.length = 10 ∧
    ∀ fuel : ℕ, treeTenAt5.insertNode fuel ⟨5, 5, 5⟩ (some (obAt5 10)) = .fuelExhausted := by
  refine ⟨by decide, by decide, by decide, ?_⟩
  intro fuel
  have hnone : insertNodeAux treeTenAt5.limit_nodes treeTenAt5.limit fuel
      (some treeTenAt5.root) treeTenAt5.root.size treeTenAt5.root ⟨5, 5, 5⟩
      ((some (obAt5 10)).getD (ObjData.raw ⟨5, 5, 5⟩)) = none :=
    coincident_insert_none fuel 10 treeTenAt5.root treeTenAt5.root
      treeTenAt5.root.size ⟨5, 5, 5⟩ (obAt5 10) (by decide) (by decide)
      (fun b => create_getBranch _ _ _ _ b) (by decide) rfl (by decide)
  unfold Octree.insertNode
  rw [show tupLt ⟨5, 5, 5⟩ treeTenAt5.root.lower = false from by decide,
    show tupLt treeTenAt5.root.upper ⟨5, 5, 5⟩ = false from by decide]
  simp only [Bool.false_eq_true, if_false]
  rw [hnone]
